import Mathlib

/-!
The Snyk REST client of snyk_exporter (`snyk.go`).

A shallow embedding of `client.do`, `client.getOrganizations`,
`client.getProjects` and `client.getIssues`, and the properties of their
pagination, query handling and error handling.

Go strings are byte sequences, so strings are modelled as lists of bytes.
The standard-library pieces the client calls are modelled as follows:

* `net/url`: `Values`, `Values.Set`, `Values.Encode`, `ParseQuery`,
  `QueryEscape`, `QueryUnescape` and `URL.Query` are modelled concretely;
  `url.Parse` (inside `http.NewRequest`) is a parameter of the environment.
* `net/http`: `httpClient.Do` is a parameter of the environment: a server that
  may depend on the whole history of requests it has received.
* `encoding/json`: parsing a body into a JSON document is a parameter of the
  environment; how `Decode` stores a document into an existing Go value is
  modelled concretely, because the client decodes every page into the same
  variable: a field whose key is absent keeps its previous value, and an
  element of an array is decoded into the element the slice already holds at
  that index, also in the part of its backing array beyond its length.
-/

namespace Snyk

/-! ## Bytes and strings -/

/-- One byte of a Go string. -/
abbrev Byte := Fin 256

/-- A Go `string` (or `[]byte`): an immutable sequence of bytes. -/
abbrev Bytes := List Byte

/-- The bytes of an ASCII string literal of the source. -/
def ascii (s : String) : Bytes := s.toList.map fun c => Fin.ofNat c.toNat

/-! ## net/url: escaping -/

/-- The `shouldEscape(c, encodeQueryComponent)` of net/url: everything except
ASCII letters, digits and `-`, `_`, `.`, `~` is escaped. -/
def shouldEscape (c : Byte) : Bool :=
  !((97 ≤ c.val && c.val ≤ 122) || (65 ≤ c.val && c.val ≤ 90) || (48 ≤ c.val && c.val ≤ 57)
    || c.val == 45 || c.val == 95 || c.val == 46 || c.val == 126)

/-- The `upperhex[n]` of net/url, for `n < 16`. -/
def upperhex (n : Nat) : Byte := if n < 10 then Fin.ofNat (48 + n) else Fin.ofNat (55 + n)

/-- The `ishex` of net/url. -/
def ishex (c : Byte) : Bool :=
  (48 ≤ c.val && c.val ≤ 57) || (97 ≤ c.val && c.val ≤ 102) || (65 ≤ c.val && c.val ≤ 70)

/-- The `unhex` of net/url. -/
def unhex (c : Byte) : Nat :=
  if 48 ≤ c.val ∧ c.val ≤ 57 then c.val - 48
  else if 97 ≤ c.val ∧ c.val ≤ 102 then c.val - 97 + 10
  else if 65 ≤ c.val ∧ c.val ≤ 70 then c.val - 65 + 10
  else 0

/-- The `url.QueryEscape`: a space becomes `+`, every other byte that must be
escaped becomes `%XX`. -/
def queryEscape : Bytes → Bytes
  | [] => []
  | c :: s =>
    if c = 32 then 43 :: queryEscape s
    else if shouldEscape c then 37 :: upperhex (c.val / 16) :: upperhex (c.val % 16) :: queryEscape s
    else c :: queryEscape s

/-- The `url.QueryUnescape`: `%XX` becomes the byte, `+` becomes a space; a `%`
not followed by two hex digits is an error (`none`). -/
def queryUnescape : Bytes → Option Bytes
  | [] => some []
  | c :: s =>
    if c = 37 then
      match s with
      | h1 :: h2 :: t =>
        if ishex h1 && ishex h2 then
          (queryUnescape t).map fun r => Fin.ofNat (unhex h1 * 16 + unhex h2) :: r
        else none
      | _ => none
    else if c = 43 then (queryUnescape s).map fun r => 32 :: r
    else (queryUnescape s).map fun r => c :: r

/-! ## net/url: Values -/

/-- The `url.Values` (`map[string][]string`), represented by its (key, value)
pairs: the values of a key are the second components of the pairs with that
key, in list order. -/
abbrev Values := List (Bytes × Bytes)

/-- The slice `v[key]`: all values of `key`, in order (empty when the key is
absent). -/
def Values.lookup (v : Values) (key : Bytes) : List Bytes :=
  (v.filter fun p => p.1 = key).map Prod.snd

/-- The `Values.Set`: `v[key] = []string{value}`, replacing existing values. -/
def Values.Set (v : Values) (key value : Bytes) : Values :=
  (v.filter fun p => p.1 ≠ key) ++ [(key, value)]

/-- Lexicographic order on Go strings (`a <= b`). -/
def bytesLe : Bytes → Bytes → Bool
  | [], _ => true
  | _ :: _, [] => false
  | a :: s, b :: t => a.val < b.val || (a.val == b.val && bytesLe s t)

/-- The keys of the map, sorted as `slices.Sort(keys)` leaves them. -/
def Values.sortedKeys (v : Values) : List Bytes :=
  List.insertionSort (fun a b => bytesLe a b = true) (v.map Prod.fst).dedup

/-- The pairs in the order `Values.Encode` writes them: keys ascending, the
values of one key in their order. -/
def Values.sortedPairs (v : Values) : List (Bytes × Bytes) :=
  (v.sortedKeys.map fun k => (v.lookup k).map fun x => (k, x)).flatten

/-- Writes `k1=v1&k2=v2&...` with keys and values escaped. -/
def encodePairs : List (Bytes × Bytes) → Bytes
  | [] => []
  | [p] => queryEscape p.1 ++ 61 :: queryEscape p.2
  | p :: q :: ps => queryEscape p.1 ++ 61 :: (queryEscape p.2 ++ 38 :: encodePairs (q :: ps))

/-- The `Values.Encode`. -/
def Values.Encode (v : Values) : Bytes := encodePairs v.sortedPairs

/-- The `strings.Split(s, sep)` for a one-byte separator. -/
def splitOn (sep : Byte) : Bytes → List Bytes
  | [] => [[]]
  | c :: s =>
    if c = sep then [] :: splitOn sep s
    else match splitOn sep s with
      | [] => [[c]]
      | h :: t => (c :: h) :: t

/-- The `strings.Cut(s, sep)` for a one-byte separator (without the `found`
flag): the text before the first separator and the text after it. -/
def cut (sep : Byte) : Bytes → Bytes × Bytes
  | [] => ([], [])
  | c :: s => if c = sep then ([], s) else ((cut sep s).1.cons c, (cut sep s).2)

/-- One iteration of the loop of `url.parseQuery` on the text between two `&`:
a segment with a `;`, an empty segment, or one whose key or value does not
unescape, adds nothing. -/
def parseSegment (seg : Bytes) : Option (Bytes × Bytes) :=
  if (59 : Byte) ∈ seg then none
  else if seg = [] then none
  else
    match queryUnescape (cut 61 seg).1, queryUnescape (cut 61 seg).2 with
    | some k, some x => some (k, x)
    | _, _ => none

/-- The map `url.ParseQuery` builds (its error, which `URL.Query` discards, is
not returned): the segments between `&` are handled left to right, and each
good one appends its value to the values of its key. -/
def parseQuery (query : Bytes) : Values :=
  (splitOn 38 query).filterMap parseSegment

/-! ## net/url and net/http: URLs, requests, responses -/

/-- A parsed `url.URL`, as far as the client looks at it: `rest` is what
`String()` prints before the query (scheme, authority, path). -/
structure URL where
  rest : Bytes
  RawQuery : Bytes
  Fragment : Bytes
deriving DecidableEq, Repr

/-- The `URL.Query()`: the parsed `RawQuery`, parse errors dropped. -/
def URL.Query (u : URL) : Values := parseQuery u.RawQuery

/-- The `URL.String()`. -/
def URL.text (u : URL) : Bytes :=
  u.rest ++ (if u.RawQuery = [] then [] else 63 :: u.RawQuery) ++
    (if u.Fragment = [] then [] else 35 :: u.Fragment)

/-- An `http.Request` with method GET and no body. -/
structure Request where
  url : URL
  header : List (Bytes × Bytes)
deriving DecidableEq, Repr

/-- The body stream of a response: its content, or the error that reading it
gives. -/
inductive BodyStream where
  | ok (content : Bytes)
  | error (e : Bytes)
deriving DecidableEq, Repr

/-- An `http.Response`. -/
structure Response where
  StatusCode : Nat
  Status : Bytes
  Body : BodyStream
deriving DecidableEq, Repr

/-- What `httpClient.Do` gives: a transport error or a response. -/
inductive RoundTrip where
  | failed (e : Bytes)
  | response (r : Response)
deriving DecidableEq, Repr

/-- The Go `error` values the client returns. -/
inductive Err where
  /-- The error of `http.NewRequest` for the given URL text. -/
  | build (rawURL : Bytes)
  /-- The error of `httpClient.Do`. -/
  | transport (e : Bytes)
  /-- The `fmt.Errorf("request not OK: ...")` of `do`, with its text. -/
  | notOK (text : Bytes)
  /-- The error of `Decode`. -/
  | decode
deriving DecidableEq, Repr

/-! ## Data shapes of the source -/

structure links where
  Next : Bytes
deriving DecidableEq, Repr

structure orgAttributes where
  GroupID : Bytes
  Name : Bytes
deriving DecidableEq, Repr

structure org where
  ID : Bytes
  Typ : Bytes
  Attributes : orgAttributes
deriving DecidableEq, Repr

structure orgsResponse where
  Orgs : List org
  Links : links
deriving DecidableEq, Repr

structure projectAttributes where
  Name : Bytes
deriving DecidableEq, Repr

structure project where
  ID : Bytes
  Typ : Bytes
  Attributes : projectAttributes
deriving DecidableEq, Repr

structure projectsResponse where
  Projects : List project
  Links : links
deriving DecidableEq, Repr

structure issueAttributes where
  ID : Bytes
  Typ : Bytes
  Title : Bytes
  Severity : Bytes
  Ignored : Bool
deriving DecidableEq, Repr

structure coordinates where
  Upgradeable : Bool
  Patchable : Bool
  Typ : Bytes
deriving DecidableEq, Repr

structure issue where
  Attributes : issueAttributes
  Coordinates : coordinates
deriving DecidableEq, Repr

structure issuesResponse where
  Issues : List issue
  Links : links
deriving DecidableEq, Repr

/-! ## encoding/json -/

/-- The JSON object for `orgAttributes`: the value of each key, `none` when the
key is absent or `null`. -/
structure orgAttributesDoc where
  GroupID : Option Bytes
  Name : Option Bytes
deriving DecidableEq, Repr

/-- The JSON object for `org`. An element `null` is the object without keys. -/
structure orgDoc where
  ID : Option Bytes
  Typ : Option Bytes
  Attributes : Option orgAttributesDoc
deriving DecidableEq, Repr

/-- The JSON object for `projectAttributes`. -/
structure projectAttributesDoc where
  Name : Option Bytes
deriving DecidableEq, Repr

/-- The JSON object for `project`. -/
structure projectDoc where
  ID : Option Bytes
  Typ : Option Bytes
  Attributes : Option projectAttributesDoc
deriving DecidableEq, Repr

/-- The JSON object for `issueAttributes`. -/
structure issueAttributesDoc where
  ID : Option Bytes
  Typ : Option Bytes
  Title : Option Bytes
  Severity : Option Bytes
  Ignored : Option Bool
deriving DecidableEq, Repr

/-- The JSON object for `coordinates`. -/
structure coordinatesDoc where
  Upgradeable : Option Bool
  Patchable : Option Bool
  Typ : Option Bytes
deriving DecidableEq, Repr

/-- The JSON object for `issue`. -/
structure issueDoc where
  Attributes : Option issueAttributesDoc
  Coordinates : Option coordinatesDoc
deriving DecidableEq, Repr

/-- Decoding a JSON object into an existing `orgAttributes`: a field whose key
is absent keeps its value. -/
def orgAttributes.decode (d : orgAttributesDoc) (a : orgAttributes) : orgAttributes :=
  { GroupID := d.GroupID.getD a.GroupID, Name := d.Name.getD a.Name }

/-- Decoding a JSON object into an existing `org`. -/
def org.decode (d : orgDoc) (o : org) : org :=
  { ID := d.ID.getD o.ID, Typ := d.Typ.getD o.Typ,
    Attributes :=
      match d.Attributes with
      | none => o.Attributes
      | some a => orgAttributes.decode a o.Attributes }

/-- Decoding a JSON object into an existing `projectAttributes`. -/
def projectAttributes.decode (d : projectAttributesDoc) (a : projectAttributes) :
    projectAttributes :=
  { Name := d.Name.getD a.Name }

/-- Decoding a JSON object into an existing `project`. -/
def project.decode (d : projectDoc) (p : project) : project :=
  { ID := d.ID.getD p.ID, Typ := d.Typ.getD p.Typ,
    Attributes :=
      match d.Attributes with
      | none => p.Attributes
      | some a => projectAttributes.decode a p.Attributes }

/-- Decoding a JSON object into an existing `issueAttributes`. -/
def issueAttributes.decode (d : issueAttributesDoc) (a : issueAttributes) : issueAttributes :=
  { ID := d.ID.getD a.ID, Typ := d.Typ.getD a.Typ, Title := d.Title.getD a.Title,
    Severity := d.Severity.getD a.Severity, Ignored := d.Ignored.getD a.Ignored }

/-- Decoding a JSON object into an existing `coordinates`. -/
def coordinates.decode (d : coordinatesDoc) (a : coordinates) : coordinates :=
  { Upgradeable := d.Upgradeable.getD a.Upgradeable, Patchable := d.Patchable.getD a.Patchable,
    Typ := d.Typ.getD a.Typ }

/-- Decoding a JSON object into an existing `issue`. -/
def issue.decode (d : issueDoc) (x : issue) : issue :=
  { Attributes :=
      match d.Attributes with
      | none => x.Attributes
      | some a => issueAttributes.decode a x.Attributes
    Coordinates :=
      match d.Coordinates with
      | none => x.Coordinates
      | some a => coordinates.decode a x.Coordinates }

/-- The zero value of `org`. -/
def org.zero : org := { ID := [], Typ := [], Attributes := { GroupID := [], Name := [] } }

/-- The zero value of `project`. -/
def project.zero : project := { ID := [], Typ := [], Attributes := { Name := [] } }

/-- The zero value of `issue`. -/
def issue.zero : issue :=
  { Attributes := { ID := [], Typ := [], Title := [], Severity := [], Ignored := false },
    Coordinates := { Upgradeable := false, Patchable := false, Typ := [] } }

/-- The object has every key of `org`, so decoding it leaves nothing of the
value it is decoded into. -/
def orgDoc.Full (d : orgDoc) : Bool :=
  d.ID.isSome && d.Typ.isSome &&
    match d.Attributes with
    | none => false
    | some a => a.GroupID.isSome && a.Name.isSome

/-- The object has every key of `project`. -/
def projectDoc.Full (d : projectDoc) : Bool :=
  d.ID.isSome && d.Typ.isSome &&
    match d.Attributes with
    | none => false
    | some a => a.Name.isSome

/-- The object has every key of `issue`. -/
def issueDoc.Full (d : issueDoc) : Bool :=
  (match d.Attributes with
    | none => false
    | some a => a.ID.isSome && a.Typ.isSome && a.Title.isSome && a.Severity.isSome &&
        a.Ignored.isSome) &&
  (match d.Coordinates with
    | none => false
    | some a => a.Upgradeable.isSome && a.Patchable.isSome && a.Typ.isSome)

/-- Decoding the elements of a JSON array into a backing array: element `i` is
decoded into the value the backing array holds at index `i`, and into the zero
value beyond its end. -/
def decodeArray {δ α : Type} (into : δ → α → α) (zero : α) : List δ → List α → List α
  | [], _ => []
  | d :: ds, [] => into d zero :: decodeArray into zero ds []
  | d :: ds, x :: buf => into d x :: decodeArray into zero ds buf

/-- Decoding the `data` key into a slice, given as its elements `items` and the
elements `spare` of its backing array beyond its length; the result is the new
pair. An absent key changes nothing; `null` and the empty array give an empty
slice with no backing array; a non-empty array is decoded element by element
into the backing array, whose elements beyond the new length stay as they
are. -/
def storeSlice {δ α : Type} (into : δ → α → α) (zero : α) (data : Option (List δ))
    (items spare : List α) : List α × List α :=
  match data with
  | none => (items, spare)
  | some [] => ([], [])
  | some (d :: ds) =>
    (decodeArray into zero (d :: ds) (items ++ spare), (items ++ spare).drop (d :: ds).length)

/-- The JSON document of one page, as far as the response types look at it:
`data` is `none` when the document has no `data` key (a `null` or empty array
is `some []`), `next` is `none` when `links.next` is absent or `null`. -/
structure Page (δ : Type) where
  data : Option (List δ)
  next : Option Bytes
deriving DecidableEq, Repr

/-- The items of a page taken on its own, decoded into fresh values: none when
`data` is omitted. -/
def Page.items {δ α : Type} (into : δ → α → α) (zero : α) (p : Page δ) : List α :=
  (p.data.getD []).map fun d => into d zero

/-- The projects of a page taken on its own. -/
def Page.projects (p : Page projectDoc) : List project := p.items project.decode project.zero

/-- The issues of a page taken on its own. -/
def Page.issues (p : Page issueDoc) : List issue := p.items issue.decode issue.zero

/-- The page has a `data` key and each of its items has every key. -/
def Page.Complete {δ : Type} (full : δ → Bool) (p : Page δ) : Bool :=
  match p.data with
  | none => false
  | some ds => ds.all full

/-- The next link of a page taken on its own: empty when absent. -/
def Page.link {α : Type} (p : Page α) : Bytes := p.next.getD []

/-- What `Decode(&orgs)` leaves in the variable `o`, whose slice `Orgs` has the
elements `spare` in its backing array beyond its length; the second component
is the new such part. -/
def storeOrgs (p : Page orgDoc) (o : orgsResponse) (spare : List org) :
    orgsResponse × List org :=
  ({ Orgs := (storeSlice org.decode org.zero p.data o.Orgs spare).1,
     Links := { Next := p.next.getD o.Links.Next } },
   (storeSlice org.decode org.zero p.data o.Orgs spare).2)

/-- What `Decode(&projectsResponseObject)` leaves in the variable. -/
def storeProjects (p : Page projectDoc) (o : projectsResponse) (spare : List project) :
    projectsResponse × List project :=
  ({ Projects := (storeSlice project.decode project.zero p.data o.Projects spare).1,
     Links := { Next := p.next.getD o.Links.Next } },
   (storeSlice project.decode project.zero p.data o.Projects spare).2)

/-- What `Decode(&issuesResponseObject)` leaves in the variable. -/
def storeIssues (p : Page issueDoc) (o : issuesResponse) (spare : List issue) :
    issuesResponse × List issue :=
  ({ Issues := (storeSlice issue.decode issue.zero p.data o.Issues spare).1,
     Links := { Next := p.next.getD o.Links.Next } },
   (storeSlice issue.decode issue.zero p.data o.Issues spare).2)

/-! ## The environment and the state -/

/-- The level of a log line. -/
inductive Level where
  | debug
  | error
deriving DecidableEq, Repr

/-- An argument of a log line. -/
inductive LogArg where
  | text (b : Bytes)
  | number (n : Nat)
deriving DecidableEq, Repr

/-- One call of `log.Debugf` or `log.Errorf`. -/
structure LogLine where
  level : Level
  format : Bytes
  args : List LogArg
deriving DecidableEq, Repr

/-- What lies outside the client: the URL parser of `http.NewRequest`, the
transport and server behind `httpClient.Do` (its answer may depend on the
requests received before), `httputil.DumpRequestOut`, and the JSON parser for
the three kinds of pages (`none`: the body is not a document of that shape). -/
structure Env where
  urlParse : Bytes → Option URL
  Do : List Request → Request → RoundTrip
  DumpRequestOut : Request → Option Bytes
  decodeOrgs : Bytes → Option (Page orgDoc)
  decodeProjects : Bytes → Option (Page projectDoc)
  decodeIssues : Bytes → Option (Page issueDoc)

/-- The observable state: the requests handed to `httpClient.Do` so far and
the log lines written so far, oldest first. -/
structure World where
  sent : List Request
  log : List LogLine
deriving DecidableEq, Repr

/-- The `log.Debugf(format, args...)`. -/
def World.Debugf (w : World) (format : String) (args : List LogArg) : World :=
  { w with log := w.log ++ [{ level := .debug, format := ascii format, args := args }] }

/-- The `log.Errorf(format, args...)`. -/
def World.Errorf (w : World) (format : String) (args : List LogArg) : World :=
  { w with log := w.log ++ [{ level := .error, format := ascii format, args := args }] }

/-- The `http.NewRequest(http.MethodGet, rawURL, nil)`: it fails exactly when
`url.Parse` does (`none` stands for the nil request and the non-nil error). -/
def newRequest (env : Env) (rawURL : Bytes) : Option Request :=
  (env.urlParse rawURL).map fun u => { url := u, header := [] }

/-- The `json.NewDecoder(response.Body).Decode(...)` up to the document: a
body that cannot be read or parsed is an error. -/
def decodeBody {α : Type} (dec : Bytes → Option (Page α)) (r : Response) : Option (Page α) :=
  match r.Body with
  | .ok b => dec b
  | .error _ => none

/-- How a call of an enumerator ends: it returns its pair of results, it
panics, or it is still in its page loop when the fuel is used up. -/
inductive Outcome (α : Type) where
  | returned (value : α) (err : Option Err)
  | panicked
  | running
deriving DecidableEq, Repr

/-! ## The client -/

structure client where
  token : Bytes
  baseURL : Bytes
deriving DecidableEq, Repr

/-- The request `do` hands to `httpClient.Do`: the authorization header added,
`version` and `limit` set in the query. -/
def client.prepare (c : client) (req : Request) : Request :=
  let header := req.header ++ [(ascii "Authorization", ascii "TOKEN " ++ c.token)]
  let query := req.url.Query
  let query := query.Set (ascii "version") (ascii "2024-01-23")
  let query := query.Set (ascii "limit") (ascii "100")
  { url := { req.url with RawQuery := query.Encode }, header := header }

/-- The `client.do` (`do` is a keyword of Lean). It returns the state after the
call and the pair of results of the source. -/
def client.doReq (env : Env) (c : client) (w : World) (req : Request) :
    World × Option Response × Option Err :=
  let req := c.prepare req
  let w := w.Debugf "Running request to URL: %v" [.text req.url.text]
  let answer := env.Do w.sent req
  let w := { w with sent := w.sent ++ [req] }
  match answer with
  | .failed e => (w, none, some (.transport e))
  | .response response =>
    if response.StatusCode ≠ 200 then
      let (w, body) :=
        match response.Body with
        | .ok body => (w, body)
        | .error e => (w.Errorf "read body failed: %v" [.text e], ascii "failed to read body")
      let w :=
        match env.DumpRequestOut req with
        | none => w.Debugf "Failed to dump request for logging" []
        | some requestDump => w.Debugf "Failed request dump: %s" [.text requestDump]
      (w, none, some (.notOK (ascii "request not OK: " ++ response.Status ++ ascii ": url: " ++
        req.url.text ++ ascii " body: " ++ body)))
    else (w, some response, none)

/-- The `client.getOrganizations`. -/
def client.getOrganizations (env : Env) (c : client) (w : World) :
    World × Outcome orgsResponse :=
  let w := w.Debugf "Start finding organizations" []
  match newRequest env (c.baseURL ++ ascii "/rest/orgs") with
  | none => (w, .returned ⟨[], ⟨[]⟩⟩ (some (.build (c.baseURL ++ ascii "/rest/orgs"))))
  | some req =>
    match c.doReq env w req with
    | (w, _, some err) => (w, .returned ⟨[], ⟨[]⟩⟩ (some err))
    | (w, none, none) => (w, .panicked)
    | (w, some response, none) =>
      match decodeBody env.decodeOrgs response with
      | none => (w, .returned ⟨[], ⟨[]⟩⟩ (some .decode))
      | some page =>
        let orgs := (storeOrgs page ⟨[], ⟨[]⟩⟩ []).1
        let w := w.Debugf "Done finding organizations, found: %d" [.number orgs.Orgs.length]
        (w, .returned orgs none)

/-- The page loop of `client.getProjects` (lines 58 to 84), `fuel` bounding the
number of iterations; `spare` holds the elements of the backing array of
`projectsResponseObject.Projects` beyond its length. -/
def client.getProjectsLoop (env : Env) (c : client) (organizationID : Bytes) :
    Nat → World → projectsResponse → List project → List project → Bytes →
      World × Outcome projectsResponse
  | fuel, w, projectsResponseObject, spare, projects, nextLink =>
    if nextLink = [] then
      let w := w.Debugf "Done finding projects for: %s, found: %d"
        [.text organizationID, .number projects.length]
      (w, .returned ⟨projects, ⟨[]⟩⟩ none)
    else
      match fuel with
      | 0 => (w, .running)
      | fuel + 1 =>
        let w := w.Debugf "More projects to be found, currently: %d" [.number projects.length]
        match newRequest env (c.baseURL ++ nextLink) with
        | none => (w, .returned ⟨[], ⟨[]⟩⟩ (some (.build (c.baseURL ++ nextLink))))
        | some req =>
          match c.doReq env w req with
          | (w, _, some err) => (w, .returned ⟨[], ⟨[]⟩⟩ (some err))
          | (w, none, none) => (w, .panicked)
          | (w, some response, none) =>
            match decodeBody env.decodeProjects response with
            | none => (w, .returned ⟨[], ⟨[]⟩⟩ (some .decode))
            | some page =>
              let decoded := storeProjects page projectsResponseObject spare
              let projectsResponseObject := decoded.1
              let spare := decoded.2
              let projects := projects ++ projectsResponseObject.Projects
              if nextLink = projectsResponseObject.Links.Next then
                let w := w.Debugf "No more new link, stopping" []
                let w := w.Debugf "Done finding projects for: %s, found: %d"
                  [.text organizationID, .number projects.length]
                (w, .returned ⟨projects, ⟨[]⟩⟩ none)
              else
                client.getProjectsLoop env c organizationID fuel w projectsResponseObject
                  spare projects projectsResponseObject.Links.Next

/-- The `client.getProjects`. -/
def client.getProjects (env : Env) (c : client) (fuel : Nat) (w : World)
    (organizationID : Bytes) : World × Outcome projectsResponse :=
  let w := w.Debugf "Start finding projects for: %s" [.text organizationID]
  let rawURL := c.baseURL ++ ascii "/rest/orgs/" ++ organizationID ++ ascii "/projects"
  match newRequest env rawURL with
  | none => (w, .returned ⟨[], ⟨[]⟩⟩ (some (.build rawURL)))
  | some req =>
    match c.doReq env w req with
    | (w, _, some err) => (w, .returned ⟨[], ⟨[]⟩⟩ (some err))
    | (w, none, none) => (w, .panicked)
    | (w, some response, none) =>
      match decodeBody env.decodeProjects response with
      | none => (w, .returned ⟨[], ⟨[]⟩⟩ (some .decode))
      | some page =>
        let decoded := storeProjects page ⟨[], ⟨[]⟩⟩ []
        let projectsResponseObject := decoded.1
        let spare := decoded.2
        let projects := [] ++ projectsResponseObject.Projects
        c.getProjectsLoop env organizationID fuel w projectsResponseObject spare projects
          projectsResponseObject.Links.Next

/-- The four lines that set `scan_item.id` and `scan_item.type` in the query of
a request (lines 94 to 97 and 120 to 123). -/
def withScanItem (projectID : Bytes) (req : Request) : Request :=
  let query := req.url.Query
  let query := query.Set (ascii "scan_item.id") projectID
  let query := query.Set (ascii "scan_item.type") (ascii "project")
  { req with url := { req.url with RawQuery := query.Encode } }

/-- The page loop of `client.getIssues` (lines 116 to 149); `spare` holds the
elements of the backing array of `issuesResponseObject.Issues` beyond its
length. The query of the new request is read before the error of
`http.NewRequest` is looked at, so a nil request is dereferenced when the
construction fails. -/
def client.getIssuesLoop (env : Env) (c : client) (projectID : Bytes) :
    Nat → World → issuesResponse → List issue → List issue → Bytes →
      World × Outcome issuesResponse
  | fuel, w, issuesResponseObject, spare, issues, nextLink =>
    if nextLink = [] then
      let w := w.Debugf "Done finding issues for: %s, found: %d"
        [.text projectID, .number issues.length]
      (w, .returned ⟨issues, ⟨[]⟩⟩ none)
    else
      match fuel with
      | 0 => (w, .running)
      | fuel + 1 =>
        let w := w.Debugf "More issues to be found, currently: %d" [.number issues.length]
        match newRequest env (c.baseURL ++ nextLink) with
        | none => (w, .panicked)
        | some req =>
          let req := withScanItem projectID req
          match c.doReq env w req with
          | (w, _, some err) => (w, .returned ⟨[], ⟨[]⟩⟩ (some err))
          | (w, none, none) => (w, .panicked)
          | (w, some response, none) =>
            match decodeBody env.decodeIssues response with
            | none => (w, .returned ⟨[], ⟨[]⟩⟩ (some .decode))
            | some page =>
              let decoded := storeIssues page issuesResponseObject spare
              let issuesResponseObject := decoded.1
              let spare := decoded.2
              let issues := issues ++ issuesResponseObject.Issues
              if nextLink = issuesResponseObject.Links.Next then
                let w := w.Debugf "No more new link, stopping" []
                let w := w.Debugf "Done finding issues for: %s, found: %d"
                  [.text projectID, .number issues.length]
                (w, .returned ⟨issues, ⟨[]⟩⟩ none)
              else
                client.getIssuesLoop env c projectID fuel w issuesResponseObject
                  spare issues issuesResponseObject.Links.Next

/-- The `client.getIssues`. -/
def client.getIssues (env : Env) (c : client) (fuel : Nat) (w : World)
    (organizationID projectID : Bytes) : World × Outcome issuesResponse :=
  let w := w.Debugf "Start finding issues for: %s" [.text projectID]
  let rawURL := c.baseURL ++ ascii "/rest/orgs/" ++ organizationID ++ ascii "/issues"
  match newRequest env rawURL with
  | none => (w, .returned ⟨[], ⟨[]⟩⟩ (some (.build rawURL)))
  | some req =>
    let req := withScanItem projectID req
    match c.doReq env w req with
    | (w, _, some err) => (w, .returned ⟨[], ⟨[]⟩⟩ (some err))
    | (w, none, none) => (w, .panicked)
    | (w, some response, none) =>
      match decodeBody env.decodeIssues response with
      | none => (w, .returned ⟨[], ⟨[]⟩⟩ (some .decode))
      | some page =>
        let decoded := storeIssues page ⟨[], ⟨[]⟩⟩ []
        let issuesResponseObject := decoded.1
        let spare := decoded.2
        let issues := [] ++ issuesResponseObject.Issues
        c.getIssuesLoop env projectID fuel w issuesResponseObject spare issues
          issuesResponseObject.Links.Next

/-! ## Pages served along the links -/

/-- The request `getProjects` builds for a link (before `do`). -/
def projectRequest (env : Env) (c : client) (link : Bytes) : Option Request :=
  newRequest env (c.baseURL ++ link)

/-- The request `getIssues` builds for a link (before `do`). -/
def issueRequest (env : Env) (c : client) (projectID link : Bytes) : Option Request :=
  (newRequest env (c.baseURL ++ link)).map (withScanItem projectID)

/-- Path of the first projects request, relative to the base URL. -/
def projectsPath (organizationID : Bytes) : Bytes :=
  ascii "/rest/orgs/" ++ organizationID ++ ascii "/projects"

/-- Path of the first issues request, relative to the base URL. -/
def issuesPath (organizationID : Bytes) : Bytes :=
  ascii "/rest/orgs/" ++ organizationID ++ ascii "/issues"

/-- One successful page fetch: the request for `link` can be built, the server,
having received `hist`, answers it with status 200, and the body decodes. The
result is the request as sent and the page; `none` when any of this fails. -/
def fetchPage {α : Type} (env : Env) (c : client) (mk : Bytes → Option Request)
    (dec : Bytes → Option (Page α)) (hist : List Request) (link : Bytes) :
    Option (Request × Page α) :=
  match mk link with
  | none => none
  | some req =>
    match env.Do hist (c.prepare req) with
    | .failed _ => none
    | .response r =>
      if r.StatusCode = 200 then (decodeBody dec r).map fun p => (c.prepare req, p) else none

/-- The first `n` pages the server delivers when the client starts at `link`
and keeps following the next link of each page, with the requests sent for
them; shorter than `n` when a fetch fails. -/
def trail {α : Type} (env : Env) (c : client) (mk : Bytes → Option Request)
    (dec : Bytes → Option (Page α)) : Nat → List Request → Bytes → List (Request × Page α)
  | 0, _, _ => []
  | n + 1, hist, link =>
    match fetchPage env c mk dec hist link with
    | none => []
    | some (req, p) => (req, p) :: trail env c mk dec n (hist ++ [req]) p.link

/-- The first `n` requests and pages of a `getProjects` call started in `w`
when it keeps following the next links. -/
def projectTrail (env : Env) (c : client) (w : World) (organizationID : Bytes) (n : Nat) :
    List (Request × Page projectDoc) :=
  trail env c (projectRequest env c) env.decodeProjects n w.sent (projectsPath organizationID)

/-- The first `n` requests and pages of a `getIssues` call started in `w` when
it keeps following the next links. -/
def issueTrail (env : Env) (c : client) (w : World) (organizationID projectID : Bytes)
    (n : Nat) : List (Request × Page issueDoc) :=
  trail env c (issueRequest env c projectID) env.decodeIssues n w.sent
    (issuesPath organizationID)

/-- The first `n` project pages served to a `getProjects` call started in `w`. -/
def projectPages (env : Env) (c : client) (w : World) (organizationID : Bytes) (n : Nat) :
    List (Page projectDoc) :=
  (projectTrail env c w organizationID n).map Prod.snd

/-- The first `n` issue pages served to a `getIssues` call started in `w`. -/
def issuePages (env : Env) (c : client) (w : World) (organizationID projectID : Bytes)
    (n : Nat) : List (Page issueDoc) :=
  (issueTrail env c w organizationID projectID n).map Prod.snd

/-- The fetch of a built request fails: the transport gives an error, the
status is not 200, or the body does not decode. -/
def FetchFails {α : Type} (env : Env) (c : client) (dec : Bytes → Option (Page α))
    (hist : List Request) (raw : Request) : Prop :=
  match env.Do hist (c.prepare raw) with
  | .failed _ => True
  | .response r => r.StatusCode ≠ 200 ∨ decodeBody dec r = none

/-- The link that was followed to fetch page `k` (counted from 0) of a list of
pages: the next link of the page before; for the first page, which is not
fetched through a link, the empty link. -/
def followedLink {α : Type} (pages : List (Page α)) (k : Nat) : Bytes :=
  match k with
  | 0 => []
  | j + 1 => (pages[j]?.map Page.link).getD []

/-- Page `k` (counted from 0) ends the enumeration: its next link is empty or
absent, or it is the link that was followed to fetch it. -/
def StopsAt {α : Type} (pages : List (Page α)) (k : Nat) : Prop :=
  ∃ p, pages[k]? = some p ∧ (p.link = [] ∨ (0 < k ∧ p.link = followedLink pages k))

/-! ## The two page loops as one loop -/

/-- What differs between the enumerators. -/
structure Kit (δ α : Type) where
  build : Bytes → Option Request
  dec : Bytes → Option (Page δ)
  /-- Decoding one element into an existing value. -/
  into : δ → α → α
  zero : α
  /-- What the loop does when the request for a link cannot be built. -/
  onBuildFail : Bytes → Outcome (List α)
  moreFormat : String
  doneFormat : String
  doneArg : Bytes

/-- Decoding the `data` of a page into the slice of the decode target, given
as its elements and the rest of its backing array. -/
def Kit.step {δ α : Type} (kit : Kit δ α) (p : Page δ) (cur : List α × List α) :
    List α × List α :=
  storeSlice kit.into kit.zero p.data cur.1 cur.2

/-- The page loop, on the slice and next link last decoded. -/
def pageLoop {δ α : Type} (env : Env) (c : client) (kit : Kit δ α) :
    Nat → World → (List α × List α) × Bytes → List α → Bytes → World × Outcome (List α)
  | fuel, w, object, items, nextLink =>
    if nextLink = [] then
      (w.Debugf kit.doneFormat [.text kit.doneArg, .number items.length], .returned items none)
    else
      match fuel with
      | 0 => (w, .running)
      | fuel + 1 =>
        let w := w.Debugf kit.moreFormat [.number items.length]
        match kit.build nextLink with
        | none => (w, kit.onBuildFail nextLink)
        | some req =>
          match c.doReq env w req with
          | (w, _, some err) => (w, .returned [] (some err))
          | (w, none, none) => (w, .panicked)
          | (w, some response, none) =>
            match decodeBody kit.dec response with
            | none => (w, .returned [] (some .decode))
            | some page =>
              let object := (kit.step page object.1, page.next.getD object.2)
              let items := items ++ object.1.1
              if nextLink = object.2 then
                ((w.Debugf "No more new link, stopping" []).Debugf kit.doneFormat
                  [.text kit.doneArg, .number items.length], .returned items none)
              else pageLoop env c kit fuel w object items object.2

/-- A whole enumeration: the first fetch, then the page loop. -/
def enumerate {δ α : Type} (env : Env) (c : client) (kit : Kit δ α) (start : Bytes)
    (fuel : Nat) (w : World) : World × Outcome (List α) :=
  match kit.build start with
  | none => (w, .returned [] (some (.build (c.baseURL ++ start))))
  | some req =>
    match c.doReq env w req with
    | (w, _, some err) => (w, .returned [] (some err))
    | (w, none, none) => (w, .panicked)
    | (w, some response, none) =>
      match decodeBody kit.dec response with
      | none => (w, .returned [] (some .decode))
      | some page =>
        pageLoop env c kit fuel w (kit.step page ([], []), page.link)
          ([] ++ (kit.step page ([], [])).1) page.link

/-- The loop of `getProjects` as a kit. -/
def projectsKit (env : Env) (c : client) (organizationID : Bytes) : Kit projectDoc project :=
  { build := projectRequest env c
    dec := env.decodeProjects
    into := project.decode
    zero := project.zero
    onBuildFail := fun link => .returned [] (some (.build (c.baseURL ++ link)))
    moreFormat := "More projects to be found, currently: %d"
    doneFormat := "Done finding projects for: %s, found: %d"
    doneArg := organizationID }

/-- The loop of `getIssues` as a kit. -/
def issuesKit (env : Env) (c : client) (projectID : Bytes) : Kit issueDoc issue :=
  { build := issueRequest env c projectID
    dec := env.decodeIssues
    into := issue.decode
    zero := issue.zero
    onBuildFail := fun _ => .panicked
    moreFormat := "More issues to be found, currently: %d"
    doneFormat := "Done finding issues for: %s, found: %d"
    doneArg := projectID }

/-- Applies a function to the value an outcome returns. -/
def Outcome.map {α β : Type} (f : α → β) : Outcome α → Outcome β
  | .returned v e => .returned (f v) e
  | .panicked => .panicked
  | .running => .running

/-- None of the pages ends the loop: each has a non-empty next link that
differs from the link that was followed to fetch it, `link` being the link
followed to fetch the first of them (empty for the first page of a call, which
is not fetched through a link). -/
def Goes {α : Type} : Bytes → List (Page α) → Prop
  | _, [] => True
  | link, p :: ps => p.link ≠ [] ∧ p.link ≠ link ∧ Goes p.link ps

/-- The items the loop appends for a list of pages, `cur` being the slice last
decoded and the rest of its backing array: a page without `data` leaves the
slice as it was, and the items of a page are decoded into the values the
backing array holds. -/
def stored {δ α : Type} (kit : Kit δ α) : List α × List α → List (Page δ) → List α
  | _, [] => []
  | cur, p :: ps => (kit.step p cur).1 ++ stored kit (kit.step p cur) ps

/-- The first `n` pages served to an enumeration started in `w`. -/
def served {δ α : Type} (env : Env) (c : client) (kit : Kit δ α) (start : Bytes) (w : World)
    (n : Nat) : List (Page δ) :=
  (trail env c kit.build kit.dec n w.sent start).map Prod.snd

/-- Page `k` (counted from 0) is served and ends the enumeration, `pages n`
being the first `n` pages served. -/
def EndsAt {α : Type} (pages : Nat → List (Page α)) (k : Nat) : Prop :=
  (pages (k + 1)).length = k + 1 ∧ StopsAt (pages (k + 1)) k

/-- Every step the client makes towards a page succeeds, the construction of
the request as well as the fetch and the decoding: whenever `n` pages have been
served and none of them ends the enumeration, the next page is served too. -/
def AllServed {α : Type} (pages : Nat → List (Page α)) : Prop :=
  ∀ n, (pages n).length = n → (∀ j, j < n → ¬ StopsAt (pages n) j) →
    (pages (n + 1)).length = n + 1

/-- The link the loop follows after a list of pages, `link` being the one it
would follow before them. -/
def lastLink {α : Type} : Bytes → List (Page α) → Bytes
  | link, [] => link
  | _, p :: ps => lastLink p.link ps

/-- The slice last decoded, with the rest of its backing array, after a list of
pages, `cur` being the one before. -/
def lastData {δ α : Type} (kit : Kit δ α) : List α × List α → List (Page δ) → List α × List α
  | cur, [] => cur
  | cur, p :: ps => lastData kit (kit.step p cur) ps

/-! ## Decidability of the conditions -/

instance StopsAt.instDecidable {α : Type} (pages : List (Page α)) (k : Nat) :
    Decidable (StopsAt pages k) :=
  match h : pages[k]? with
  | none => isFalse (fun ⟨_, hp, _⟩ => by rw [h] at hp; cases hp)
  | some p =>
    if hc : p.link = [] ∨ (0 < k ∧ p.link = followedLink pages k) then isTrue ⟨p, h, hc⟩
    else isFalse (fun ⟨q, hq, hh⟩ => by rw [h] at hq; cases hq; exact hc hh)

instance EndsAt.instDecidable {α : Type} (pages : Nat → List (Page α)) (k : Nat) :
    Decidable (EndsAt pages k) :=
  inferInstanceAs (Decidable ((pages (k + 1)).length = k + 1 ∧ StopsAt (pages (k + 1)) k))

/-- Decides `Goes`. -/
def Goes.decide {α : Type} : (link : Bytes) → (ps : List (Page α)) → Decidable (Goes link ps)
  | _, [] => isTrue trivial
  | link, p :: ps =>
    have : Decidable (Goes p.link ps) := Goes.decide p.link ps
    inferInstanceAs (Decidable (p.link ≠ [] ∧ p.link ≠ link ∧ Goes p.link ps))

instance Goes.instDecidable {α : Type} (link : Bytes) (ps : List (Page α)) :
    Decidable (Goes link ps) := Goes.decide link ps

instance FetchFails.instDecidable {α : Type} [DecidableEq α] (env : Env) (c : client)
    (dec : Bytes → Option (Page α)) (hist : List Request) (raw : Request) :
    Decidable (FetchFails env c dec hist raw) :=
  match h : env.Do hist (c.prepare raw) with
  | .failed _ => isTrue (by unfold FetchFails; rw [h]; trivial)
  | .response r =>
    if hc : r.StatusCode ≠ 200 ∨ decodeBody dec r = none then
      isTrue (by unfold FetchFails; rw [h]; exact hc)
    else isFalse (by unfold FetchFails; rw [h]; exact hc)

/-! ## Concrete environments for the examples -/

/-- A `url.Parse` for the examples: like `url.Parse` it rejects text with an
ASCII control byte and splits off the fragment and the query; it checks nothing
else. -/
def parseURL (raw : Bytes) : Option URL :=
  if raw.any (fun b => decide (b.val < 32) || decide (b.val = 127)) then none
  else
    some { rest := (cut 63 (cut 35 raw).1).1, RawQuery := (cut 63 (cut 35 raw).1).2,
           Fragment := (cut 35 raw).2 }

/-- A server that answers its k-th request with the k-th entry of a script,
whatever the request, and fails when the script is used up. -/
def scripted (script : List RoundTrip) (hist : List Request) (_req : Request) : RoundTrip :=
  script.getD hist.length (.failed (ascii "EOF"))

/-- A status 200 response whose body is document number `k` (the body is the
one byte `k`). -/
def doc (k : Nat) : RoundTrip :=
  .response { StatusCode := 200, Status := ascii "200 OK", Body := .ok [Fin.ofNat k] }

/-- A JSON parser for the examples: the body `k` is the k-th document of a
list; anything else is not a document. -/
def nth {α : Type} (docs : List (Page α)) (body : Bytes) : Option (Page α) :=
  match body with
  | [k] => docs[k.val]?
  | _ => none

/-- The JSON object with every key of the organization with the given id. -/
def orgObject (id : String) : orgDoc :=
  { ID := some (ascii id), Typ := some (ascii "org"),
    Attributes := some { GroupID := some (ascii "g"), Name := some (ascii id) } }

/-- The JSON object with every key of the project with the given id. -/
def projObject (id : String) : projectDoc :=
  { ID := some (ascii id), Typ := some (ascii "project"),
    Attributes := some { Name := some (ascii id) } }

/-- The JSON object with every key of the issue with the given id. -/
def issObject (id : String) : issueDoc :=
  { Attributes := some { ID := some (ascii id), Typ := some (ascii "issue"),
                         Title := some (ascii id), Severity := some (ascii "high"),
                         Ignored := some false },
    Coordinates := some { Upgradeable := some false, Patchable := some false,
                          Typ := some (ascii "vuln") } }

/-- An organization with the given id. -/
def organization (id : String) : org :=
  { ID := ascii id, Typ := ascii "org", Attributes := { GroupID := ascii "g", Name := ascii id } }

/-- A project with the given id. -/
def proj (id : String) : project :=
  { ID := ascii id, Typ := ascii "project", Attributes := { Name := ascii id } }

/-- An issue with the given id. -/
def iss (id : String) : issue :=
  { Attributes := { ID := ascii id, Typ := ascii "issue", Title := ascii id,
                    Severity := ascii "high", Ignored := false },
    Coordinates := { Upgradeable := false, Patchable := false, Typ := ascii "vuln" } }

/-- The client of the examples. -/
def exClient : client := { token := ascii "t", baseURL := ascii "https://api.snyk.io" }

/-- An environment with a scripted server and the documents of each kind. -/
def exEnv (script : List RoundTrip) (orgs : List (Page orgDoc))
    (projects : List (Page projectDoc)) (issues : List (Page issueDoc)) : Env :=
  { urlParse := parseURL
    Do := scripted script
    DumpRequestOut := fun _ => none
    decodeOrgs := nth orgs
    decodeProjects := nth projects
    decodeIssues := nth issues }

/-- The empty state. -/
def w0 : World := { sent := [], log := [] }

/-- Three pages with distinct next links, the last without a next link. -/
def threePages : Env :=
  exEnv [doc 0, doc 1, doc 2] []
    [⟨some [projObject "a"], some (ascii "/p2")⟩, ⟨some [projObject "b"], some (ascii "/p3")⟩,
     ⟨some [projObject "c"], none⟩]
    [⟨some [issObject "a"], some (ascii "/p2")⟩, ⟨some [issObject "b"], some (ascii "/p3")⟩,
     ⟨some [issObject "c"], none⟩]

/-- Three pages whose first two carry the same next link `/p`; the server
answers the second request for `/p` with the third page. -/
def sameLinkTwice : Env :=
  exEnv [doc 0, doc 1, doc 2] []
    [⟨some [projObject "a"], some (ascii "/p")⟩, ⟨some [projObject "b"], some (ascii "/p")⟩,
     ⟨some [projObject "c"], some []⟩]
    [⟨some [issObject "a"], some (ascii "/p")⟩, ⟨some [issObject "b"], some (ascii "/p")⟩,
     ⟨some [issObject "c"], some []⟩]

/-- A first page with a next link, then status 403 with the body `forbidden`. -/
def secondForbidden : Env :=
  exEnv [doc 0, .response ⟨403, ascii "403 Forbidden", .ok (ascii "forbidden")⟩] []
    [⟨some [projObject "a"], some (ascii "/p2")⟩] [⟨some [issObject "a"], some (ascii "/p2")⟩]

/-- One page without a next link. -/
def onePage : Env :=
  exEnv [doc 0] [] [⟨some [projObject "a"], none⟩] [⟨some [issObject "a"], none⟩]

/-- Two pages of organizations, the first with a next link. -/
def twoOrgPages : Env :=
  exEnv [doc 0, doc 1]
    [⟨some [orgObject "o1"], some (ascii "/rest/orgs?starting_after=o1")⟩,
     ⟨some [orgObject "o2"], none⟩] [] []

/-- A first page with a next link, a second page without `data` whose next
link is the link it was fetched through. -/
def secondWithoutDataSameLink : Env :=
  exEnv [doc 0, doc 1] []
    [⟨some [projObject "a"], some (ascii "/p")⟩, ⟨none, some (ascii "/p")⟩]
    [⟨some [issObject "a"], some (ascii "/p")⟩, ⟨none, some (ascii "/p")⟩]

/-- A first page with a next link, a second page without `data` and without a
next link. -/
def secondWithoutData : Env :=
  exEnv [doc 0, doc 1] []
    [⟨some [projObject "a"], some (ascii "/p2")⟩, ⟨none, none⟩]
    [⟨some [issObject "a"], some (ascii "/p2")⟩, ⟨none, none⟩]

/-- A server without state whose next links alternate: the request for `/a` is
answered with a page whose next link is `/b`, every other request with a page
whose next link is `/a`. -/
def alternating : Env :=
  { urlParse := parseURL
    Do := fun _ req => if req.url.rest = ascii "https://api.snyk.io/a" then doc 1 else doc 0
    DumpRequestOut := fun _ => none
    decodeOrgs := fun _ => none
    decodeProjects := nth [⟨some [projObject "x"], some (ascii "/a")⟩, ⟨some [projObject "y"], some (ascii "/b")⟩]
    decodeIssues := fun _ => none }

/-- The pages the alternating server delivers: `n` pages, the first being the
one with next link `/b` when `b` is true and the one with `/a` otherwise. -/
def altPages : Bool → Nat → List (Page projectDoc)
  | _, 0 => []
  | true, n + 1 => ⟨some [projObject "y"], some (ascii "/b")⟩ :: altPages false n
  | false, n + 1 => ⟨some [projObject "x"], some (ascii "/a")⟩ :: altPages true n

/-- A first page whose next link has a line feed in it, which `url.Parse`
rejects. -/
def badNextLink : Env :=
  exEnv [doc 0, doc 1] []
    [⟨some [projObject "a"], some (ascii "/p2\n")⟩, ⟨some [projObject "b"], none⟩]
    [⟨some [issObject "a"], some (ascii "/p2\n")⟩, ⟨some [issObject "b"], none⟩]

/-- A first page with one item and a next link, a second page whose one item
has only the key `id` (for issues: only `attributes.id`). -/
def secondItemPartial : Env :=
  exEnv [doc 0, doc 1] []
    [⟨some [projObject "a"], some (ascii "/p2")⟩,
     ⟨some [{ ID := some (ascii "b"), Typ := none, Attributes := none }], none⟩]
    [⟨some [issObject "a"], some (ascii "/p2")⟩,
     ⟨some [{ Attributes := some { ID := some (ascii "b"), Typ := none, Title := none,
                                   Severity := none, Ignored := none },
              Coordinates := none }], none⟩]

/-- A server on which no fetch and no decode ever fails: it answers every
request with status 200 and the same page, whose next link has a line feed in
it, which `url.Parse` rejects. -/
def everBadNextLink : Env :=
  { urlParse := parseURL
    Do := fun _ _ => doc 0
    DumpRequestOut := fun _ => none
    decodeOrgs := fun _ => none
    decodeProjects := nth [⟨some [projObject "a"], some (ascii "/p2\n")⟩]
    decodeIssues := nth [⟨some [issObject "a"], some (ascii "/p2\n")⟩] }

/-! ## Facts about the query codec -/

set_option maxRecDepth 100000 in
theorem unhex_upperhex (b : Byte) :
    ishex (upperhex (b.val / 16)) = true ∧ ishex (upperhex (b.val % 16)) = true ∧
    (Fin.ofNat (unhex (upperhex (b.val / 16)) * 16 + unhex (upperhex (b.val % 16))) : Byte) = b := by
  revert b; decide

set_option maxRecDepth 100000 in
theorem upperhex_plain (b : Byte) :
    (upperhex (b.val / 16) ≠ 38 ∧ upperhex (b.val / 16) ≠ 61 ∧ upperhex (b.val / 16) ≠ 59) ∧
    (upperhex (b.val % 16) ≠ 38 ∧ upperhex (b.val % 16) ≠ 61 ∧ upperhex (b.val % 16) ≠ 59) := by
  revert b; decide

set_option maxRecDepth 100000 in
theorem unescaped_plain (c : Byte) (h : shouldEscape c = false) :
    c ≠ 37 ∧ c ≠ 43 ∧ c ≠ 38 ∧ c ≠ 61 ∧ c ≠ 59 := by
  revert c; decide

theorem queryUnescape_queryEscape (s : Bytes) : queryUnescape (queryEscape s) = some s := by
  induction s with
  | nil => rfl
  | cons c s ih =>
    unfold queryEscape
    by_cases h32 : c = 32
    · subst h32
      simp only [if_true]
      unfold queryUnescape
      rw [if_neg (by decide), if_pos rfl, ih]; rfl
    · rw [if_neg h32]
      cases hesc : shouldEscape c with
      | true =>
        simp only [if_true]
        unfold queryUnescape
        obtain ⟨h1, h2, h3⟩ := unhex_upperhex c
        simp only [if_true, h1, h2, Bool.and_self, ih, Option.map_some', h3]
      | false =>
        obtain ⟨h37, h43, -⟩ := unescaped_plain c hesc
        simp only [Bool.false_eq_true, if_false]
        unfold queryUnescape
        rw [if_neg h37, if_neg h43, ih]; rfl

/-- No `&`, `=` or `;` occurs in escaped text. -/
theorem queryEscape_plain (s : Bytes) :
    ∀ x ∈ queryEscape s, x ≠ 38 ∧ x ≠ 61 ∧ x ≠ 59 := by
  induction s with
  | nil => intro x hx; simp [queryEscape] at hx
  | cons c s ih =>
    intro x hx
    unfold queryEscape at hx
    by_cases h32 : c = 32
    · subst h32
      simp only [if_true, List.mem_cons] at hx
      rcases hx with rfl | hx
      · decide
      · exact ih x hx
    · rw [if_neg h32] at hx
      cases hesc : shouldEscape c with
      | true =>
        rw [hesc] at hx
        simp only [if_true, List.mem_cons] at hx
        obtain ⟨ha, hb⟩ := upperhex_plain c
        rcases hx with rfl | rfl | rfl | hx
        · decide
        · exact ha
        · exact hb
        · exact ih x hx
      | false =>
        rw [hesc] at hx
        simp only [Bool.false_eq_true, if_false, List.mem_cons] at hx
        obtain ⟨-, -, h3⟩ := unescaped_plain c hesc
        rcases hx with rfl | hx
        · exact h3
        · exact ih x hx

theorem splitOn_ne_nil (sep : Byte) (s : Bytes) : splitOn sep s ≠ [] := by
  cases s with
  | nil => simp [splitOn]
  | cons c s =>
    unfold splitOn
    split
    · simp
    · split <;> simp

theorem splitOn_plain (sep : Byte) (a : Bytes) (h : sep ∉ a) : splitOn sep a = [a] := by
  induction a with
  | nil => rfl
  | cons c a ih =>
    have hc : c ≠ sep := fun e => h (by simp [e])
    have ha : sep ∉ a := fun e => h (by simp [e])
    unfold splitOn
    rw [if_neg hc, ih ha]

theorem splitOn_append (sep : Byte) (a r : Bytes) (h : sep ∉ a) :
    splitOn sep (a ++ sep :: r) = a :: splitOn sep r := by
  induction a with
  | nil => simp [splitOn]
  | cons c a ih =>
    have hc : c ≠ sep := fun e => h (by simp [e])
    have ha : sep ∉ a := fun e => h (by simp [e])
    have hstep : splitOn sep (c :: (a ++ sep :: r)) =
        match splitOn sep (a ++ sep :: r) with
        | [] => [[c]]
        | h :: t => (c :: h) :: t := by
      simp only [splitOn, if_neg hc]
    rw [List.cons_append, hstep, ih ha]

theorem cut_append (sep : Byte) (a b : Bytes) (h : sep ∉ a) :
    cut sep (a ++ sep :: b) = (a, b) := by
  induction a with
  | nil => simp [cut]
  | cons c a ih =>
    have hc : c ≠ sep := fun e => h (by simp [e])
    have ha : sep ∉ a := fun e => h (by simp [e])
    rw [List.cons_append]
    unfold cut
    rw [if_neg hc, ih ha]

theorem parseSegment_pair (k x : Bytes) :
    parseSegment (queryEscape k ++ 61 :: queryEscape x) = some (k, x) := by
  have hk := queryEscape_plain k
  have hx := queryEscape_plain x
  have h59 : (59 : Byte) ∉ queryEscape k ++ 61 :: queryEscape x := by
    intro hm
    rcases List.mem_append.1 hm with hm | hm
    · exact (hk _ hm).2.2 rfl
    · rcases List.mem_cons.1 hm with hm | hm
      · exact absurd hm (by decide)
      · exact (hx _ hm).2.2 rfl
  have h61 : (61 : Byte) ∉ queryEscape k := fun hm => (hk _ hm).2.1 rfl
  unfold parseSegment
  rw [if_neg h59, if_neg (by simp), cut_append _ _ _ h61]
  simp only [queryUnescape_queryEscape]

theorem pair_no_amp (k x : Bytes) : (38 : Byte) ∉ queryEscape k ++ 61 :: queryEscape x := by
  intro hm
  rcases List.mem_append.1 hm with hm | hm
  · exact (queryEscape_plain k _ hm).1 rfl
  · rcases List.mem_cons.1 hm with hm | hm
    · exact absurd hm (by decide)
    · exact (queryEscape_plain x _ hm).1 rfl

/-- Parsing what `encodePairs` wrote gives the pairs back. -/
theorem parseQuery_encodePairs (ps : List (Bytes × Bytes)) : parseQuery (encodePairs ps) = ps := by
  induction ps with
  | nil => decide
  | cons p ps ih =>
    cases ps with
    | nil =>
      simp only [encodePairs, parseQuery]
      rw [splitOn_plain _ _ (pair_no_amp p.1 p.2)]
      simp [parseSegment_pair]
    | cons q ps =>
      simp only [encodePairs, parseQuery] at ih ⊢
      have hre : queryEscape p.1 ++ 61 :: (queryEscape p.2 ++ 38 :: encodePairs (q :: ps)) =
          (queryEscape p.1 ++ 61 :: queryEscape p.2) ++ 38 :: encodePairs (q :: ps) := by simp
      rw [hre, splitOn_append _ _ _ (pair_no_amp p.1 p.2)]
      simp only [List.filterMap_cons, parseSegment_pair, ih]

theorem lookup_append (a b : Values) (k : Bytes) :
    Values.lookup (a ++ b) k = Values.lookup a k ++ Values.lookup b k := by
  simp [Values.lookup, List.filter_append]

theorem lookup_of_not_mem (v : Values) (k : Bytes) (h : k ∉ v.map Prod.fst) :
    Values.lookup v k = [] := by
  induction v with
  | nil => rfl
  | cons p v ih =>
    have hp : p.1 ≠ k := fun e => h (by simp [e])
    have hv : k ∉ v.map Prod.fst := fun e => h (by simp [e])
    have := ih hv
    simp only [Values.lookup, List.filter_cons, hp, decide_False, Bool.false_eq_true,
      if_false] at this ⊢
    exact this

theorem lookup_tagged (k k0 : Bytes) (xs : List Bytes) :
    Values.lookup (xs.map fun x => (k, x)) k0 = if k = k0 then xs else [] := by
  induction xs with
  | nil => simp [Values.lookup]
  | cons x xs ih =>
    by_cases h : k = k0
    · simp only [Values.lookup, h, if_true] at ih ⊢
      simp only [List.map_cons, List.filter_cons, decide_True, if_true, ih]
    · simp only [Values.lookup, h, if_false] at ih ⊢
      simp only [List.map_cons, List.filter_cons, h, decide_False, Bool.false_eq_true,
        if_false, ih]

theorem lookup_flatten (v : Values) (k0 : Bytes) (ks : List Bytes) (hnd : ks.Nodup) :
    Values.lookup ((ks.map fun k => (v.lookup k).map fun x => (k, x)).flatten) k0 =
      if k0 ∈ ks then v.lookup k0 else [] := by
  induction ks with
  | nil => simp [Values.lookup]
  | cons k ks ih =>
    obtain ⟨hk, hks⟩ := List.nodup_cons.1 hnd
    rw [List.map_cons, List.flatten_cons, lookup_append, lookup_tagged, ih hks]
    by_cases h : k = k0
    · subst h
      simp [hk]
    · have h2 : k0 ≠ k := fun e => h e.symm
      simp [h, h2]

/-- Sorting the keys does not change the values of any key. -/
theorem lookup_sortedPairs (v : Values) (k : Bytes) :
    Values.lookup v.sortedPairs k = Values.lookup v k := by
  have hperm : v.sortedKeys.Perm (v.map Prod.fst).dedup := List.perm_insertionSort _ _
  have hnd : v.sortedKeys.Nodup := hperm.nodup_iff.2 (List.nodup_dedup _)
  unfold Values.sortedPairs
  rw [lookup_flatten v k _ hnd]
  by_cases hk : k ∈ v.sortedKeys
  · rw [if_pos hk]
  · rw [if_neg hk]
    have : k ∉ v.map Prod.fst := fun hm => hk (hperm.mem_iff.2 (List.mem_dedup.2 hm))
    exact (lookup_of_not_mem v k this).symm

/-- Reading back what `Encode` wrote gives every key its values. -/
theorem lookup_parseQuery_Encode (v : Values) (k : Bytes) :
    Values.lookup (parseQuery v.Encode) k = Values.lookup v k := by
  unfold Values.Encode
  rw [parseQuery_encodePairs, lookup_sortedPairs]

theorem lookup_Set_self (v : Values) (k x : Bytes) : Values.lookup (v.Set k x) k = [x] := by
  simp [Values.Set, Values.lookup, List.filter_append, List.filter_filter]

theorem lookup_Set_other (v : Values) (k x k0 : Bytes) (h : k0 ≠ k) :
    Values.lookup (v.Set k x) k0 = Values.lookup v k0 := by
  have h2 : k ≠ k0 := fun e => h e.symm
  simp only [Values.Set, Values.lookup, List.filter_append, List.filter_filter, List.map_append]
  have : List.filter (fun p : Bytes × Bytes => decide (p.1 = k0)) [(k, x)] = [] := by
    simp [h2]
  rw [this, List.map_nil, List.append_nil]
  congr 1
  apply List.filter_congr
  intro p _
  by_cases hp : p.1 = k0
  · simp [hp, h]
  · simp [hp]

/-! ## Facts about `do` -/

theorem Debugf_sent (w : World) (f : String) (a : List LogArg) : (w.Debugf f a).sent = w.sent := rfl

theorem Errorf_sent (w : World) (f : String) (a : List LogArg) : (w.Errorf f a).sent = w.sent := rfl

/-- Every call of `do` hands exactly one request to the transport: the prepared one. -/
theorem doReq_sent (env : Env) (c : client) (w : World) (req : Request) :
    (c.doReq env w req).1.sent = w.sent ++ [c.prepare req] := by
  unfold client.doReq
  simp only [Debugf_sent]
  cases env.Do w.sent (c.prepare req) with
  | failed e => rfl
  | response r =>
    by_cases h : r.StatusCode = 200
    · simp [h]
    · simp only [ne_eq, h, not_false_eq_true, if_true]
      cases r.Body <;> cases env.DumpRequestOut (c.prepare req) <;> rfl

/-- On status 200 `do` returns the response. -/
theorem doReq_ok (env : Env) (c : client) (w : World) (req : Request) (r : Response)
    (hdo : env.Do w.sent (c.prepare req) = .response r) (h200 : r.StatusCode = 200) :
    (c.doReq env w req).2 = (some r, none) := by
  unfold client.doReq
  simp [Debugf_sent, hdo, h200]

/-- When `do` does not return a response, it returns an error. -/
theorem doReq_shape (env : Env) (c : client) (w : World) (req : Request) :
    (∃ r, env.Do w.sent (c.prepare req) = .response r ∧ r.StatusCode = 200 ∧
      (c.doReq env w req).2 = (some r, none)) ∨
    (∃ e, (c.doReq env w req).2 = (none, some e) ∧
      ∀ r, env.Do w.sent (c.prepare req) = .response r → r.StatusCode ≠ 200) := by
  unfold client.doReq
  simp only [Debugf_sent]
  cases hdo : env.Do w.sent (c.prepare req) with
  | failed e => right; exact ⟨_, rfl, fun r hr => by cases hr⟩
  | response r =>
    by_cases h : r.StatusCode = 200
    · left; exact ⟨r, rfl, h, by simp [h]⟩
    · right
      simp only [ne_eq, h, not_false_eq_true, if_true]
      refine ⟨_, rfl, fun r2 hr => ?_⟩
      cases hr; exact h

/-! ## The enumerators are instances of the one loop -/

theorem getProjectsLoop_eq (env : Env) (c : client) (org : Bytes) (fuel : Nat) :
    ∀ (w : World) (obj : projectsResponse) (spare acc : List project) (next : Bytes),
    c.getProjectsLoop env org fuel w obj spare acc next =
      ((pageLoop env c (projectsKit env c org) fuel w ((obj.Projects, spare), obj.Links.Next)
          acc next).1,
       (pageLoop env c (projectsKit env c org) fuel w ((obj.Projects, spare), obj.Links.Next)
          acc next).2.map fun items => ⟨items, ⟨[]⟩⟩) := by
  induction fuel with
  | zero =>
    intro w obj spare acc next
    unfold client.getProjectsLoop pageLoop
    by_cases h : next = []
    · simp [h, Outcome.map, projectsKit]
    · simp [h, Outcome.map]
  | succ n ih =>
    intro w obj spare acc next
    unfold client.getProjectsLoop pageLoop
    by_cases h : next = []
    · simp [h, Outcome.map, projectsKit]
    · simp only [h, if_false]
      cases hb : newRequest env (c.baseURL ++ next) with
      | none => simp [projectsKit, projectRequest, hb, Outcome.map]
      | some req =>
        simp only [projectsKit, projectRequest, hb]
        rcases hd : c.doReq env
          (w.Debugf "More projects to be found, currently: %d" [.number acc.length]) req
          with ⟨w1, resp, err⟩
        cases err with
        | some e => simp [Outcome.map]
        | none =>
          cases resp with
          | none => simp [Outcome.map]
          | some r =>
            simp only
            cases hp : decodeBody env.decodeProjects r with
            | none => simp [Outcome.map]
            | some page =>
              simp only [storeProjects]
              by_cases hg : next = page.next.getD obj.Links.Next
              · simp [hg, Outcome.map, Kit.step]
              · simp only [hg, if_false]
                rw [ih]
                rfl

theorem getIssuesLoop_eq (env : Env) (c : client) (pid : Bytes) (fuel : Nat) :
    ∀ (w : World) (obj : issuesResponse) (spare acc : List issue) (next : Bytes),
    c.getIssuesLoop env pid fuel w obj spare acc next =
      ((pageLoop env c (issuesKit env c pid) fuel w ((obj.Issues, spare), obj.Links.Next)
          acc next).1,
       (pageLoop env c (issuesKit env c pid) fuel w ((obj.Issues, spare), obj.Links.Next)
          acc next).2.map fun items => ⟨items, ⟨[]⟩⟩) := by
  induction fuel with
  | zero =>
    intro w obj spare acc next
    unfold client.getIssuesLoop pageLoop
    by_cases h : next = []
    · simp [h, Outcome.map, issuesKit]
    · simp [h, Outcome.map]
  | succ n ih =>
    intro w obj spare acc next
    unfold client.getIssuesLoop pageLoop
    by_cases h : next = []
    · simp [h, Outcome.map, issuesKit]
    · simp only [h, if_false]
      cases hb : newRequest env (c.baseURL ++ next) with
      | none => simp [issuesKit, issueRequest, hb, Outcome.map]
      | some req =>
        simp only [issuesKit, issueRequest, hb, Option.map_some']
        rcases hd : c.doReq env
          (w.Debugf "More issues to be found, currently: %d" [.number acc.length])
          (withScanItem pid req) with ⟨w1, resp, err⟩
        cases err with
        | some e => simp [Outcome.map]
        | none =>
          cases resp with
          | none => simp [Outcome.map]
          | some r =>
            simp only
            cases hp : decodeBody env.decodeIssues r with
            | none => simp [Outcome.map]
            | some page =>
              simp only [storeIssues]
              by_cases hg : next = page.next.getD obj.Links.Next
              · simp [hg, Outcome.map, Kit.step]
              · simp only [hg, if_false]
                rw [ih]
                rfl

/-- The `getProjects` is the enumeration with the projects kit, started at the
projects path, after its first log line. -/
theorem getProjects_eq (env : Env) (c : client) (fuel : Nat) (w : World) (org : Bytes) :
    c.getProjects env fuel w org =
      ((enumerate env c (projectsKit env c org) (projectsPath org) fuel
          (w.Debugf "Start finding projects for: %s" [.text org])).1,
       (enumerate env c (projectsKit env c org) (projectsPath org) fuel
          (w.Debugf "Start finding projects for: %s" [.text org])).2.map
         fun items => ⟨items, ⟨[]⟩⟩) := by
  unfold client.getProjects enumerate
  have hurl : c.baseURL ++ ascii "/rest/orgs/" ++ org ++ ascii "/projects" =
      c.baseURL ++ projectsPath org := by simp [projectsPath]
  simp only [hurl, projectsKit, projectRequest]
  cases hb : newRequest env (c.baseURL ++ projectsPath org) with
  | none => simp [Outcome.map]
  | some req =>
    simp only
    rcases hd : c.doReq env (w.Debugf "Start finding projects for: %s" [.text org]) req
      with ⟨w1, resp, err⟩
    cases err with
    | some e => simp [Outcome.map]
    | none =>
      cases resp with
      | none => simp [Outcome.map]
      | some r =>
        simp only
        cases hp : decodeBody env.decodeProjects r with
        | none => simp [Outcome.map]
        | some page =>
          simp only [storeProjects]
          rw [getProjectsLoop_eq]
          rfl

/-- The `getIssues` is the enumeration with the issues kit, started at the
issues path, after its first log line. -/
theorem getIssues_eq (env : Env) (c : client) (fuel : Nat) (w : World) (org pid : Bytes) :
    c.getIssues env fuel w org pid =
      ((enumerate env c (issuesKit env c pid) (issuesPath org) fuel
          (w.Debugf "Start finding issues for: %s" [.text pid])).1,
       (enumerate env c (issuesKit env c pid) (issuesPath org) fuel
          (w.Debugf "Start finding issues for: %s" [.text pid])).2.map
         fun items => ⟨items, ⟨[]⟩⟩) := by
  unfold client.getIssues enumerate
  have hurl : c.baseURL ++ ascii "/rest/orgs/" ++ org ++ ascii "/issues" =
      c.baseURL ++ issuesPath org := by simp [issuesPath]
  simp only [hurl, issuesKit, issueRequest]
  cases hb : newRequest env (c.baseURL ++ issuesPath org) with
  | none => simp [Outcome.map]
  | some req =>
    simp only [Option.map_some']
    rcases hd : c.doReq env (w.Debugf "Start finding issues for: %s" [.text pid])
      (withScanItem pid req) with ⟨w1, resp, err⟩
    cases err with
    | some e => simp [Outcome.map]
    | none =>
      cases resp with
      | none => simp [Outcome.map]
      | some r =>
        simp only
        cases hp : decodeBody env.decodeIssues r with
        | none => simp [Outcome.map]
        | some page =>
          simp only [storeIssues]
          rw [getIssuesLoop_eq]
          rfl

/-! ## One iteration of the page loop -/

theorem fetchPage_some {α : Type} {env : Env} {c : client} {mk : Bytes → Option Request}
    {dec : Bytes → Option (Page α)} {hist : List Request} {link : Bytes} {req : Request}
    {p : Page α} (h : fetchPage env c mk dec hist link = some (req, p)) :
    ∃ raw r, mk link = some raw ∧ req = c.prepare raw ∧ env.Do hist req = .response r ∧
      r.StatusCode = 200 ∧ decodeBody dec r = some p := by
  unfold fetchPage at h
  cases hm : mk link with
  | none => simp [hm] at h
  | some raw =>
    simp only [hm] at h
    cases hd : env.Do hist (c.prepare raw) with
    | failed e => simp [hd] at h
    | response r =>
      simp only [hd] at h
      by_cases h200 : r.StatusCode = 200
      · simp only [h200, if_true] at h
        cases hp : decodeBody dec r with
        | none => simp [hp] at h
        | some q =>
          simp only [hp, Option.map_some', Option.some.injEq, Prod.mk.injEq] at h
          obtain ⟨h1, h2⟩ := h
          subst h1 h2
          exact ⟨raw, r, rfl, rfl, hd, h200, hp⟩
      · simp [h200] at h

/-- An iteration whose fetch succeeds: the guard ends the loop, or the loop
goes on from the decoded object. -/
theorem pageLoop_fetch {δ α : Type} (env : Env) (c : client) (kit : Kit δ α) (f : Nat) (w : World)
    (cur : List α × List α) (acc : List α) (L : Bytes) (req : Request) (p : Page δ) (hL : L ≠ [])
    (hf : fetchPage env c kit.build kit.dec w.sent L = some (req, p)) :
    ∃ w1 : World, w1.sent = w.sent ++ [req] ∧
      pageLoop env c kit (f + 1) w (cur, L) acc L =
        if L = p.next.getD L then
          ((w1.Debugf "No more new link, stopping" []).Debugf kit.doneFormat
            [.text kit.doneArg, .number (acc ++ (kit.step p cur).1).length],
            .returned (acc ++ (kit.step p cur).1) none)
        else pageLoop env c kit f w1 (kit.step p cur, p.next.getD L) (acc ++ (kit.step p cur).1)
          (p.next.getD L) := by
  obtain ⟨raw, r, hm, hreq, hdo, h200, hp⟩ := fetchPage_some hf
  subst hreq
  refine ⟨(c.doReq env (w.Debugf kit.moreFormat [.number acc.length]) raw).1, ?_, ?_⟩
  · rw [doReq_sent]; rfl
  · rw [pageLoop]
    simp only [hL, if_false, hm]
    have hres := doReq_ok env c (w.Debugf kit.moreFormat [.number acc.length]) raw r hdo h200
    rcases hd : c.doReq env (w.Debugf kit.moreFormat [.number acc.length]) raw with ⟨w1, resp, err⟩
    rw [hd] at hres
    simp only [Prod.mk.injEq] at hres
    obtain ⟨h1, h2⟩ := hres
    subst h1 h2
    simp only [hp]

theorem pageLoop_done {δ α : Type} (env : Env) (c : client) (kit : Kit δ α) (f : Nat) (w : World)
    (obj : (List α × List α) × Bytes) (acc : List α) :
    pageLoop env c kit f w obj acc [] =
      (w.Debugf kit.doneFormat [.text kit.doneArg, .number acc.length], .returned acc none) := by
  unfold pageLoop; simp

theorem pageLoop_zero {δ α : Type} (env : Env) (c : client) (kit : Kit δ α) (w : World)
    (obj : (List α × List α) × Bytes) (acc : List α) (L : Bytes) (hL : L ≠ []) :
    pageLoop env c kit 0 w obj acc L = (w, .running) := by
  unfold pageLoop; simp [hL]

/-- An iteration whose page ends the enumeration. -/
theorem pageLoop_stop {δ α : Type} (env : Env) (c : client) (kit : Kit δ α) (f : Nat) (w : World)
    (cur : List α × List α) (acc : List α) (L : Bytes) (req : Request) (p : Page δ) (hL : L ≠ [])
    (hf : fetchPage env c kit.build kit.dec w.sent L = some (req, p))
    (hstop : p.link = [] ∨ p.link = L) :
    ∃ w1 : World, w1.sent = w.sent ++ [req] ∧
      pageLoop env c kit (f + 1) w (cur, L) acc L =
        (w1, .returned (acc ++ (kit.step p cur).1) none) := by
  obtain ⟨w1, hs, he⟩ := pageLoop_fetch env c kit f w cur acc L req p hL hf
  rw [he]
  by_cases hg : L = p.next.getD L
  · rw [if_pos hg]
    exact ⟨_, by simpa [Debugf_sent] using hs, rfl⟩
  · rw [if_neg hg]
    have hl0 : p.next.getD L = [] := by
      cases hn : p.next with
      | none => simp [hn] at hg
      | some l =>
        rw [hn] at hg
        rcases hstop with h | h
        · simpa [Page.link, hn] using h
        · exact absurd (by simpa [Page.link, hn] using h.symm) hg
    rw [hl0, pageLoop_done]
    exact ⟨_, by simpa [Debugf_sent] using hs, rfl⟩

/-- An iteration after which the loop goes on. -/
theorem pageLoop_go {δ α : Type} (env : Env) (c : client) (kit : Kit δ α) (f : Nat) (w : World)
    (cur : List α × List α) (acc : List α) (L : Bytes) (req : Request) (p : Page δ) (hL : L ≠ [])
    (hf : fetchPage env c kit.build kit.dec w.sent L = some (req, p))
    (h1 : p.link ≠ []) (h2 : p.link ≠ L) :
    ∃ w1 : World, w1.sent = w.sent ++ [req] ∧
      pageLoop env c kit (f + 1) w (cur, L) acc L =
        pageLoop env c kit f w1 (kit.step p cur, p.link) (acc ++ (kit.step p cur).1) p.link := by
  obtain ⟨w1, hs, he⟩ := pageLoop_fetch env c kit f w cur acc L req p hL hf
  refine ⟨w1, hs, ?_⟩
  rw [he]
  cases hn : p.next with
  | none => simp [Page.link, hn] at h1
  | some l =>
    have hl : L ≠ l := fun e => h2 (by simp [Page.link, hn, e])
    simp [Page.link, hn, hl]

/-- An iteration whose request is built but whose fetch or decode fails: the
loop returns an error and no items, having sent that one request. -/
theorem pageLoop_fail {δ α : Type} (env : Env) (c : client) (kit : Kit δ α) (f : Nat) (w : World)
    (obj : (List α × List α) × Bytes) (acc : List α) (L : Bytes) (raw : Request) (hL : L ≠ [])
    (hb : kit.build L = some raw)
    (hf : fetchPage env c kit.build kit.dec w.sent L = none) :
    ∃ (w1 : World) (e : Err), w1.sent = w.sent ++ [c.prepare raw] ∧
      pageLoop env c kit (f + 1) w obj acc L = (w1, .returned [] (some e)) := by
  rw [pageLoop]
  simp only [hL, if_false, hb]
  have hsent := doReq_sent env c (w.Debugf kit.moreFormat [.number acc.length]) raw
  rcases doReq_shape env c (w.Debugf kit.moreFormat [.number acc.length]) raw with
    ⟨r, hdo, h200, hres⟩ | ⟨e, hres, -⟩
  · rcases hd : c.doReq env (w.Debugf kit.moreFormat [.number acc.length]) raw with ⟨w1, resp, err⟩
    rw [hd] at hres hsent
    simp only [Prod.mk.injEq] at hres
    obtain ⟨h1, h2⟩ := hres
    subst h1 h2
    have hdec : decodeBody kit.dec r = none := by
      unfold fetchPage at hf
      simp only [hb] at hf
      rw [Debugf_sent] at hdo
      simp only [hdo, h200, if_true] at hf
      cases hp : decodeBody kit.dec r with
      | none => rfl
      | some q => simp [hp] at hf
    simp only [hdec]
    exact ⟨w1, .decode, by simpa [Debugf_sent] using hsent, rfl⟩
  · rcases hd : c.doReq env (w.Debugf kit.moreFormat [.number acc.length]) raw with ⟨w1, resp, err⟩
    rw [hd] at hres hsent
    simp only [Prod.mk.injEq] at hres
    obtain ⟨h1, h2⟩ := hres
    subst h1 h2
    exact ⟨w1, e, by simpa [Debugf_sent] using hsent, rfl⟩

/-- An iteration whose request cannot be built sends nothing. -/
theorem pageLoop_nobuild {δ α : Type} (env : Env) (c : client) (kit : Kit δ α) (f : Nat) (w : World)
    (obj : (List α × List α) × Bytes) (acc : List α) (L : Bytes) (hL : L ≠ [])
    (hb : kit.build L = none) :
    pageLoop env c kit (f + 1) w obj acc L =
      (w.Debugf kit.moreFormat [.number acc.length], kit.onBuildFail L) := by
  rw [pageLoop]
  simp [hL, hb]

/-! ## The first fetch -/

theorem enumerate_fetch {δ α : Type} (env : Env) (c : client) (kit : Kit δ α) (start : Bytes)
    (fuel : Nat) (w : World) (req : Request) (p : Page δ)
    (hf : fetchPage env c kit.build kit.dec w.sent start = some (req, p)) :
    ∃ w1 : World, w1.sent = w.sent ++ [req] ∧
      enumerate env c kit start fuel w = pageLoop env c kit fuel w1 (kit.step p ([], []), p.link) (kit.step p ([], [])).1 p.link := by
  obtain ⟨raw, r, hm, hreq, hdo, h200, hp⟩ := fetchPage_some hf
  subst hreq
  refine ⟨(c.doReq env w raw).1, doReq_sent env c w raw, ?_⟩
  unfold enumerate
  simp only [hm]
  have hres := doReq_ok env c w raw r hdo h200
  rcases hd : c.doReq env w raw with ⟨w1, resp, err⟩
  rw [hd] at hres
  simp only [Prod.mk.injEq] at hres
  obtain ⟨h1, h2⟩ := hres
  subst h1 h2
  simp only [hp, List.nil_append]

theorem enumerate_fail {δ α : Type} (env : Env) (c : client) (kit : Kit δ α) (start : Bytes)
    (fuel : Nat) (w : World) (raw : Request) (hb : kit.build start = some raw)
    (hf : fetchPage env c kit.build kit.dec w.sent start = none) :
    ∃ (w1 : World) (e : Err), w1.sent = w.sent ++ [c.prepare raw] ∧
      enumerate env c kit start fuel w = (w1, .returned [] (some e)) := by
  unfold enumerate
  simp only [hb]
  have hsent := doReq_sent env c w raw
  rcases doReq_shape env c w raw with ⟨r, hdo, h200, hres⟩ | ⟨e, hres, -⟩
  · rcases hd : c.doReq env w raw with ⟨w1, resp, err⟩
    rw [hd] at hres hsent
    simp only [Prod.mk.injEq] at hres
    obtain ⟨h1, h2⟩ := hres
    subst h1 h2
    have hdec : decodeBody kit.dec r = none := by
      unfold fetchPage at hf
      simp only [hb] at hf
      simp only [hdo, h200, if_true] at hf
      cases hp : decodeBody kit.dec r with
      | none => rfl
      | some q => simp [hp] at hf
    simp only [hdec]
    exact ⟨w1, .decode, hsent, rfl⟩
  · rcases hd : c.doReq env w raw with ⟨w1, resp, err⟩
    rw [hd] at hres hsent
    simp only [Prod.mk.injEq] at hres
    obtain ⟨h1, h2⟩ := hres
    subst h1 h2
    exact ⟨w1, e, hsent, rfl⟩

/-! ## Pages served along the links -/

theorem trail_length_le {α : Type} (env : Env) (c : client) (mk : Bytes → Option Request)
    (dec : Bytes → Option (Page α)) (n : Nat) :
    ∀ (hist : List Request) (L : Bytes), (trail env c mk dec n hist L).length ≤ n := by
  induction n with
  | zero => intro hist L; simp [trail]
  | succ n ih =>
    intro hist L
    unfold trail
    cases hf : fetchPage env c mk dec hist L with
    | none => simp
    | some x =>
      obtain ⟨req, p⟩ := x
      simpa using ih (hist ++ [req]) p.link

/-- One more page at the end of the trail. -/
theorem trail_snoc {α : Type} (env : Env) (c : client) (mk : Bytes → Option Request)
    (dec : Bytes → Option (Page α)) (n : Nat) :
    ∀ (hist : List Request) (L : Bytes),
    trail env c mk dec (n + 1) hist L =
      if (trail env c mk dec n hist L).length = n then
        match fetchPage env c mk dec (hist ++ (trail env c mk dec n hist L).map Prod.fst)
            (lastLink L ((trail env c mk dec n hist L).map Prod.snd)) with
        | none => trail env c mk dec n hist L
        | some x => trail env c mk dec n hist L ++ [x]
      else trail env c mk dec n hist L := by
  induction n with
  | zero =>
    intro hist L
    simp only [trail, List.length_nil, if_true, List.map_nil, List.append_nil, lastLink]
    cases hf : fetchPage env c mk dec hist L with
    | none => rfl
    | some x => rfl
  | succ n ih =>
    intro hist L
    rw [trail]
    conv_rhs => rw [trail]
    cases hf : fetchPage env c mk dec hist L with
    | none => simp
    | some x =>
      obtain ⟨req, p⟩ := x
      simp only [List.length_cons, add_left_inj, List.map_cons, lastLink]
      rw [ih (hist ++ [req]) p.link]
      simp only [List.append_assoc, List.cons_append, List.nil_append]
      by_cases hlen : (trail env c mk dec n (hist ++ [req]) p.link).length = n
      · simp only [hlen, if_true]
        cases fetchPage env c mk dec
          (hist ++ req :: (trail env c mk dec n (hist ++ [req]) p.link).map Prod.fst)
          (lastLink p.link ((trail env c mk dec n (hist ++ [req]) p.link).map Prod.snd)) with
        | none => rfl
        | some y => rfl
      · simp only [hlen, if_false]

/-- A trail of `n + 1` pages read from its end: the first `n` pages, then the
fetch of the last. -/
theorem trail_snoc_inv {α : Type} (env : Env) (c : client) (mk : Bytes → Option Request)
    (dec : Bytes → Option (Page α)) (hist : List Request) (L : Bytes) (front : List (Page α))
    (q : Page α)
    (h : (trail env c mk dec (front.length + 1) hist L).map Prod.snd = front ++ [q]) :
    (trail env c mk dec front.length hist L).map Prod.snd = front ∧
    ∃ req, fetchPage env c mk dec (hist ++ (trail env c mk dec front.length hist L).map Prod.fst)
        (lastLink L front) = some (req, q) ∧
      trail env c mk dec (front.length + 1) hist L =
        trail env c mk dec front.length hist L ++ [(req, q)] := by
  have hle := trail_length_le env c mk dec front.length hist L
  have hlen : (trail env c mk dec (front.length + 1) hist L).length = front.length + 1 := by
    have := congrArg List.length h
    simpa using this
  rw [trail_snoc] at h hlen
  by_cases hl : (trail env c mk dec front.length hist L).length = front.length
  · simp only [hl, if_true] at h hlen
    cases hf : fetchPage env c mk dec
      (hist ++ (trail env c mk dec front.length hist L).map Prod.fst)
      (lastLink L ((trail env c mk dec front.length hist L).map Prod.snd)) with
    | none =>
      rw [hf] at hlen
      have hlen2 : (trail env c mk dec front.length hist L).length = front.length + 1 := hlen
      omega
    | some x =>
      rw [hf] at h
      simp only [List.map_append, List.map_cons, List.map_nil] at h
      have hl2 : ((trail env c mk dec front.length hist L).map Prod.snd).length = front.length := by
        simpa using hl
      obtain ⟨h1, h2⟩ := List.append_inj h hl2
      simp only [List.cons.injEq, and_true] at h2
      obtain ⟨req, q2⟩ := x
      subst h2
      rw [h1] at hf
      refine ⟨h1, req, hf, ?_⟩
      rw [trail_snoc]
      simp only [hl, if_true, h1, hf]
  · simp only [hl, if_false] at hlen
    omega

theorem trail_cons_inv {α : Type} (env : Env) (c : client) (mk : Bytes → Option Request)
    (dec : Bytes → Option (Page α)) (hist : List Request) (L : Bytes) (p : Page α)
    (ps : List (Page α))
    (h : (trail env c mk dec (ps.length + 1) hist L).map Prod.snd = p :: ps) :
    ∃ req, fetchPage env c mk dec hist L = some (req, p) ∧
      (trail env c mk dec ps.length (hist ++ [req]) p.link).map Prod.snd = ps ∧
      trail env c mk dec (ps.length + 1) hist L =
        (req, p) :: trail env c mk dec ps.length (hist ++ [req]) p.link := by
  rw [trail] at h ⊢
  cases hf : fetchPage env c mk dec hist L with
  | none => simp [hf] at h
  | some x =>
    obtain ⟨req, p2⟩ := x
    simp only [hf, List.map_cons, List.cons.injEq] at h
    obtain ⟨h1, h2⟩ := h
    subst h1
    exact ⟨req, rfl, h2, rfl⟩

theorem stored_append {δ α : Type} (kit : Kit δ α) (a b : List (Page δ)) :
    ∀ cur : List α × List α,
      stored kit cur (a ++ b) = stored kit cur a ++ stored kit (lastData kit cur a) b := by
  induction a with
  | nil => intro cur; simp [stored, lastData]
  | cons p a ih => intro cur; simp [stored, lastData, ih]

/-- Decoding into an empty backing array decodes every element into the zero
value. -/
theorem decodeArray_nil {δ α : Type} (into : δ → α → α) (zero : α) (ds : List δ) :
    decodeArray into zero ds [] = ds.map fun d => into d zero := by
  induction ds with
  | nil => rfl
  | cons d ds ih => simp [decodeArray, ih]

/-- Elements that have every key are decoded as into the zero value, whatever
the backing array holds. -/
theorem decodeArray_full {δ α : Type} (into : δ → α → α) (zero : α) (full : δ → Bool)
    (hfull : ∀ d x, full d = true → into d x = into d zero) (ds : List δ)
    (h : ds.all full = true) :
    ∀ buf : List α, decodeArray into zero ds buf = ds.map fun d => into d zero := by
  induction ds with
  | nil => intro buf; cases buf <;> rfl
  | cons d ds ih =>
    intro buf
    simp only [List.all_cons, Bool.and_eq_true] at h
    cases buf with
    | nil => simp [decodeArray, decodeArray_nil]
    | cons x buf => simp [decodeArray, ih h.2 buf, hfull d x h.1]

/-- The first page of a call is decoded into fresh values. -/
theorem step_first {δ α : Type} (kit : Kit δ α) (p : Page δ) :
    (kit.step p ([], [])).1 = p.items kit.into kit.zero := by
  unfold Kit.step storeSlice Page.items
  cases hd : p.data with
  | none => rfl
  | some ds =>
    cases ds with
    | nil => rfl
    | cons d ds => simp [decodeArray_nil]

/-- A page with `data` whose items have every key is decoded as on its own. -/
theorem step_complete {δ α : Type} (kit : Kit δ α) (full : δ → Bool)
    (hfull : ∀ d x, full d = true → kit.into d x = kit.into d kit.zero) (p : Page δ)
    (h : p.Complete full = true) (cur : List α × List α) :
    (kit.step p cur).1 = p.items kit.into kit.zero := by
  unfold Kit.step storeSlice Page.items
  unfold Page.Complete at h
  cases hd : p.data with
  | none => rw [hd] at h; cases h
  | some ds =>
    rw [hd] at h
    cases ds with
    | nil => rfl
    | cons d ds =>
      simp only [Option.getD_some]
      exact decodeArray_full kit.into kit.zero full hfull (d :: ds) h _

/-- The items of pages that all carry `data` with items that have every key. -/
theorem stored_of_complete {δ α : Type} (kit : Kit δ α) (full : δ → Bool)
    (hfull : ∀ d x, full d = true → kit.into d x = kit.into d kit.zero) (ps : List (Page δ))
    (h : ∀ p ∈ ps, p.Complete full = true) :
    ∀ cur : List α × List α,
      stored kit cur ps = (ps.map (Page.items kit.into kit.zero)).flatten := by
  induction ps with
  | nil => intro cur; simp [stored]
  | cons p ps ih =>
    intro cur
    simp only [stored, List.map_cons, List.flatten_cons]
    rw [step_complete kit full hfull p (h p (by simp)) cur,
      ih (fun q hq => h q (by simp [hq]))]

/-- The loop runs through pages that do not stop it. -/
theorem pageLoop_advance {δ α : Type} (env : Env) (c : client) (kit : Kit δ α) (f : Nat)
    (ps : List (Page δ)) :
    ∀ (w : World) (cur : List α × List α) (acc : List α) (L : Bytes), L ≠ [] →
      (trail env c kit.build kit.dec ps.length w.sent L).map Prod.snd = ps → Goes L ps →
      ∃ w1 : World,
        w1.sent = w.sent ++ (trail env c kit.build kit.dec ps.length w.sent L).map Prod.fst ∧
        lastLink L ps ≠ [] ∧
        pageLoop env c kit (ps.length + f) w (cur, L) acc L =
          pageLoop env c kit f w1 (lastData kit cur ps, lastLink L ps) (acc ++ stored kit cur ps)
            (lastLink L ps) := by
  induction ps with
  | nil =>
    intro w cur acc L hL _ _
    exact ⟨w, by simp [trail], hL, by simp [lastData, lastLink, stored]⟩
  | cons p ps ih =>
    intro w cur acc L hL ht hg
    obtain ⟨req, hf, ht2, hteq⟩ := trail_cons_inv env c kit.build kit.dec w.sent L p ps ht
    obtain ⟨h1, h2, h3⟩ := hg
    obtain ⟨w1, hs1, he1⟩ := pageLoop_go env c kit (ps.length + f) w cur acc L req p hL hf h1 h2
    rw [← hs1] at ht2
    obtain ⟨w2, hs2, hl2, he2⟩ := ih w1 (kit.step p cur) (acc ++ (kit.step p cur).1) p.link h1 ht2 h3
    refine ⟨w2, ?_, hl2, ?_⟩
    · rw [hs2, hs1]
      simp only [List.length_cons]
      rw [hteq]
      simp
    · have harith : (p :: ps).length + f = ps.length + f + 1 := by simp; omega
      rw [harith, he1, he2]
      simp [lastData, lastLink, stored]

/-- The enumeration runs through a first page and further pages that do not
stop it, and is then at the head of the loop. -/
theorem enumerate_advance {δ α : Type} (env : Env) (c : client) (kit : Kit δ α) (start : Bytes)
    (w : World) (p0 : Page δ) (rest : List (Page δ)) (f : Nat)
    (ht : (trail env c kit.build kit.dec (rest.length + 1) w.sent start).map Prod.snd = p0 :: rest)
    (hg : Goes [] (p0 :: rest)) :
    ∃ w1 : World,
      w1.sent = w.sent ++ (trail env c kit.build kit.dec (rest.length + 1) w.sent start).map Prod.fst ∧
      lastLink [] (p0 :: rest) ≠ [] ∧
      enumerate env c kit start (rest.length + f) w =
        pageLoop env c kit f w1 (lastData kit ([], []) (p0 :: rest), lastLink [] (p0 :: rest))
          (stored kit ([], []) (p0 :: rest)) (lastLink [] (p0 :: rest)) := by
  obtain ⟨req, hf, ht2, hteq⟩ := trail_cons_inv env c kit.build kit.dec w.sent start p0 rest ht
  obtain ⟨h1, -, h3⟩ := hg
  obtain ⟨w1, hs1, he1⟩ := enumerate_fetch env c kit start (rest.length + f) w req p0 hf
  rw [← hs1] at ht2
  obtain ⟨w2, hs2, hl2, he2⟩ := pageLoop_advance env c kit f rest w1 (kit.step p0 ([], []))
    (kit.step p0 ([], [])).1 p0.link h1 ht2 h3
  refine ⟨w2, ?_, hl2, ?_⟩
  · rw [hs2, hs1, hteq]; simp
  · rw [he1, he2]
    simp [lastData, lastLink, stored]

/-! ## Whole runs of an enumeration -/

/-- Pages `front` do not stop the loop and page `q` after them does: the
enumeration returns what was stored, having sent one request per page. -/
theorem enumerate_stops {δ α : Type} (env : Env) (c : client) (kit : Kit δ α) (start : Bytes)
    (w : World) (front : List (Page δ)) (q : Page δ) (fuel : Nat)
    (ht : (trail env c kit.build kit.dec (front.length + 1) w.sent start).map Prod.snd =
      front ++ [q])
    (hg : Goes [] front) (hstop : q.link = [] ∨ q.link = lastLink [] front)
    (hfuel : front.length ≤ fuel) :
    ∃ w1 : World,
      w1.sent = w.sent ++
        (trail env c kit.build kit.dec (front.length + 1) w.sent start).map Prod.fst ∧
      enumerate env c kit start fuel w = (w1, .returned (stored kit ([], []) (front ++ [q])) none) := by
  obtain ⟨ht1, req, hf, hteq⟩ := trail_snoc_inv env c kit.build kit.dec w.sent start front q ht
  cases front with
  | nil =>
    simp only [List.length_nil, trail, List.map_nil, List.append_nil, lastLink] at hf hteq hstop
    obtain ⟨w1, hs1, he1⟩ := enumerate_fetch env c kit start fuel w req q hf
    have hq : q.link = [] := by rcases hstop with h | h <;> exact h
    rw [he1, hq, pageLoop_done]
    refine ⟨w1.Debugf kit.doneFormat
      [.text kit.doneArg, .number (kit.step q ([], [])).1.length], ?_, ?_⟩
    · rw [Debugf_sent, hs1]
      simp only [List.length_nil, Nat.zero_add, trail, hf]
      simp
    · simp [stored]
  | cons p0 rest =>
    obtain ⟨f, hfeq⟩ : ∃ f, fuel = rest.length + (f + 1) := by
      refine ⟨fuel - (rest.length + 1), ?_⟩
      simp only [List.length_cons] at hfuel
      omega
    obtain ⟨w1, hs1, hl1, he1⟩ := enumerate_advance env c kit start w p0 rest (f + 1) ht1 hg
    simp only [List.length_cons] at hf hteq ⊢
    rw [← hs1] at hf
    have hll : lastLink start (p0 :: rest) = lastLink [] (p0 :: rest) := rfl
    rw [hll] at hf
    obtain ⟨w2, hs2, he2⟩ := pageLoop_stop env c kit f w1 (lastData kit ([], []) (p0 :: rest))
      (stored kit ([], []) (p0 :: rest)) (lastLink [] (p0 :: rest)) req q hl1 hf hstop
    refine ⟨w2, ?_, ?_⟩
    · rw [hs2, hs1, hteq]; simp
    · rw [hfeq, he1, he2, stored_append]
      simp [stored]

/-- Pages `front` do not stop the loop and the fetch after them fails although
its request is built: the enumeration returns an error and no items, and the
failing request is the last one sent. -/
theorem enumerate_fails {δ α : Type} (env : Env) (c : client) (kit : Kit δ α) (start : Bytes)
    (w : World) (front : List (Page δ)) (raw : Request) (fuel : Nat)
    (ht : (trail env c kit.build kit.dec front.length w.sent start).map Prod.snd = front)
    (hg : Goes [] front)
    (hb : kit.build (lastLink start front) = some raw)
    (hf : fetchPage env c kit.build kit.dec
      (w.sent ++ (trail env c kit.build kit.dec front.length w.sent start).map Prod.fst)
      (lastLink start front) = none)
    (hfuel : front.length ≤ fuel) :
    ∃ (w1 : World) (e : Err),
      w1.sent = w.sent ++
        (trail env c kit.build kit.dec front.length w.sent start).map Prod.fst ++
        [c.prepare raw] ∧
      enumerate env c kit start fuel w = (w1, .returned [] (some e)) := by
  cases front with
  | nil =>
    simp only [List.length_nil, trail, List.map_nil, List.append_nil, lastLink] at hf hb ⊢
    exact enumerate_fail env c kit start fuel w raw hb hf
  | cons p0 rest =>
    obtain ⟨f, hfeq⟩ : ∃ f, fuel = rest.length + (f + 1) := by
      refine ⟨fuel - (rest.length + 1), ?_⟩
      simp only [List.length_cons] at hfuel
      omega
    obtain ⟨w1, hs1, hl1, he1⟩ := enumerate_advance env c kit start w p0 rest (f + 1) ht hg
    simp only [List.length_cons] at hf ⊢
    rw [← hs1] at hf ⊢
    have hll : lastLink start (p0 :: rest) = lastLink [] (p0 :: rest) := rfl
    rw [hll] at hf hb
    obtain ⟨w2, e, hs2, he2⟩ := pageLoop_fail env c kit f w1
      (lastData kit ([], []) (p0 :: rest), lastLink [] (p0 :: rest)) (stored kit ([], []) (p0 :: rest))
      (lastLink [] (p0 :: rest)) raw hl1 hb hf
    exact ⟨w2, e, hs2, by rw [hfeq, he1, he2]⟩

/-- Pages that do not stop the loop use up the fuel: with fuel for one
iteration less than there are such pages, the enumeration is still running. -/
theorem enumerate_runs {δ α : Type} (env : Env) (c : client) (kit : Kit δ α) (start : Bytes)
    (w : World) (p0 : Page δ) (rest : List (Page δ))
    (ht : (trail env c kit.build kit.dec (rest.length + 1) w.sent start).map Prod.snd = p0 :: rest)
    (hg : Goes [] (p0 :: rest)) :
    ∃ w1 : World,
      w1.sent = w.sent ++
        (trail env c kit.build kit.dec (rest.length + 1) w.sent start).map Prod.fst ∧
      enumerate env c kit start rest.length w = (w1, .running) := by
  obtain ⟨w1, hs1, hl1, he1⟩ := enumerate_advance env c kit start w p0 rest 0 ht hg
  refine ⟨w1, hs1, ?_⟩
  rw [Nat.add_zero] at he1
  rw [he1, pageLoop_zero _ _ _ _ _ _ _ hl1]

/-! ## Queries of the requests sent -/

theorem prepare_lookup_version (c : client) (req : Request) :
    (c.prepare req).url.Query.lookup (ascii "version") = [ascii "2024-01-23"] := by
  simp only [client.prepare, URL.Query]
  rw [lookup_parseQuery_Encode, lookup_Set_other _ _ _ _ (by decide), lookup_Set_self]

theorem prepare_lookup_limit (c : client) (req : Request) :
    (c.prepare req).url.Query.lookup (ascii "limit") = [ascii "100"] := by
  simp only [client.prepare, URL.Query]
  rw [lookup_parseQuery_Encode, lookup_Set_self]

theorem prepare_lookup_other (c : client) (req : Request) (key : Bytes)
    (h1 : key ≠ ascii "version") (h2 : key ≠ ascii "limit") :
    (c.prepare req).url.Query.lookup key = req.url.Query.lookup key := by
  simp only [client.prepare, URL.Query]
  rw [lookup_parseQuery_Encode, lookup_Set_other _ _ _ _ h2, lookup_Set_other _ _ _ _ h1]

theorem withScanItem_lookup (pid : Bytes) (req : Request) :
    (withScanItem pid req).url.Query.lookup (ascii "scan_item.id") = [pid] ∧
    (withScanItem pid req).url.Query.lookup (ascii "scan_item.type") = [ascii "project"] := by
  simp only [withScanItem, URL.Query]
  constructor
  · rw [lookup_parseQuery_Encode, lookup_Set_other _ _ _ _ (by decide), lookup_Set_self]
  · rw [lookup_parseQuery_Encode, lookup_Set_self]

/-- Every request the page loop sends is a prepared request built for a link. -/
theorem pageLoop_sent {δ α : Type} (env : Env) (c : client) (kit : Kit δ α) (fuel : Nat) :
    ∀ (w : World) (obj : (List α × List α) × Bytes) (acc : List α) (L : Bytes),
    ∃ new : List Request, (pageLoop env c kit fuel w obj acc L).1.sent = w.sent ++ new ∧
      ∀ r ∈ new, ∃ link raw, kit.build link = some raw ∧ r = c.prepare raw := by
  induction fuel with
  | zero =>
    intro w obj acc L
    refine ⟨[], ?_, by simp⟩
    unfold pageLoop
    by_cases h : L = [] <;> simp [h, Debugf_sent]
  | succ n ih =>
    intro w obj acc L
    unfold pageLoop
    by_cases h : L = []
    · exact ⟨[], by simp [h, Debugf_sent], by simp⟩
    · simp only [h, if_false]
      cases hb : kit.build L with
      | none => exact ⟨[], by simp [Debugf_sent], by simp⟩
      | some raw =>
        simp only
        have hsent := doReq_sent env c (w.Debugf kit.moreFormat [.number acc.length]) raw
        rcases hd : c.doReq env (w.Debugf kit.moreFormat [.number acc.length]) raw
          with ⟨w1, resp, err⟩
        rw [hd] at hsent
        simp only [Debugf_sent] at hsent
        have hone : ∀ r ∈ [c.prepare raw], ∃ link raw2, kit.build link = some raw2 ∧
            r = c.prepare raw2 := by
          intro r hr
          simp only [List.mem_singleton] at hr
          exact ⟨L, raw, hb, hr⟩
        cases err with
        | some e => cases resp <;> exact ⟨[c.prepare raw], hsent, hone⟩
        | none =>
          cases resp with
          | none => exact ⟨[c.prepare raw], hsent, hone⟩
          | some r =>
            simp only
            cases hp : decodeBody kit.dec r with
            | none => exact ⟨[c.prepare raw], hsent, hone⟩
            | some page =>
              simp only
              by_cases hg : L = page.next.getD obj.2
              · simp only [hg, if_true]
                exact ⟨[c.prepare raw], by simpa [Debugf_sent, ← hg] using hsent, hone⟩
              · simp only [hg, if_false]
                obtain ⟨new, hn1, hn2⟩ := ih w1 (kit.step page obj.1, page.next.getD obj.2)
                  (acc ++ (kit.step page obj.1).1) (page.next.getD obj.2)
                refine ⟨c.prepare raw :: new, ?_, ?_⟩
                · rw [hn1, hsent]; simp
                · intro r hr
                  rcases List.mem_cons.1 hr with hr | hr
                  · exact ⟨L, raw, hb, hr⟩
                  · exact hn2 r hr

/-- Every request an enumeration sends is a prepared request built for a link. -/
theorem enumerate_sent {δ α : Type} (env : Env) (c : client) (kit : Kit δ α) (start : Bytes)
    (fuel : Nat) (w : World) :
    ∃ new : List Request, (enumerate env c kit start fuel w).1.sent = w.sent ++ new ∧
      ∀ r ∈ new, ∃ link raw, kit.build link = some raw ∧ r = c.prepare raw := by
  unfold enumerate
  cases hb : kit.build start with
  | none => exact ⟨[], by simp, by simp⟩
  | some raw =>
    simp only
    have hsent := doReq_sent env c w raw
    rcases hd : c.doReq env w raw with ⟨w1, resp, err⟩
    rw [hd] at hsent
    simp only at hsent
    have hone : ∀ r ∈ [c.prepare raw], ∃ link raw2, kit.build link = some raw2 ∧
        r = c.prepare raw2 := by
      intro r hr
      simp only [List.mem_singleton] at hr
      exact ⟨start, raw, hb, hr⟩
    cases err with
    | some e => cases resp <;> exact ⟨[c.prepare raw], hsent, hone⟩
    | none =>
      cases resp with
      | none => exact ⟨[c.prepare raw], hsent, hone⟩
      | some r =>
        simp only
        cases hp : decodeBody kit.dec r with
        | none => exact ⟨[c.prepare raw], hsent, hone⟩
        | some page =>
          simp only
          obtain ⟨new, hn1, hn2⟩ := pageLoop_sent env c kit fuel w1 (kit.step page ([], []), page.link)
            ([] ++ (kit.step page ([], [])).1) page.link
          refine ⟨c.prepare raw :: new, ?_, ?_⟩
          · rw [hn1, hsent]; simp
          · intro r hr
            rcases List.mem_cons.1 hr with hr | hr
            · exact ⟨start, raw, hb, hr⟩
            · exact hn2 r hr

/-! ## The claims -/

/-- C3. Filter reattachment in `getIssues`: whatever the server, the link texts
and the fuel, every request the call hands to the transport (the first one and
each one built from a next link) has, in its query as sent, exactly the value
`projectID` for `scan_item.id` and exactly the value `project` for
`scan_item.type`. -/
theorem getIssues_requests_carry_filter (env : Env) (c : client) (fuel : Nat) (w : World)
    (organizationID projectID : Bytes) :
    ∃ new : List Request,
      (c.getIssues env fuel w organizationID projectID).1.sent = w.sent ++ new ∧
      ∀ r ∈ new,
        r.url.Query.lookup (ascii "scan_item.id") = [projectID] ∧
        r.url.Query.lookup (ascii "scan_item.type") = [ascii "project"] := by
  rw [getIssues_eq]
  obtain ⟨new, h1, h2⟩ := enumerate_sent env c (issuesKit env c projectID)
    (issuesPath organizationID) fuel (w.Debugf "Start finding issues for: %s" [.text projectID])
  refine ⟨new, by simpa [Debugf_sent] using h1, ?_⟩
  intro r hr
  obtain ⟨link, raw, hb, hreq⟩ := h2 r hr
  simp only [issuesKit, issueRequest] at hb
  cases hn : newRequest env (c.baseURL ++ link) with
  | none => simp [hn] at hb
  | some raw0 =>
    simp only [hn, Option.map_some', Option.some.injEq] at hb
    subst hb hreq
    obtain ⟨ha, hb2⟩ := withScanItem_lookup projectID raw0
    constructor
    · rw [prepare_lookup_other _ _ _ (by decide) (by decide)]; exact ha
    · rw [prepare_lookup_other _ _ _ (by decide) (by decide)]; exact hb2

/-- C4. Forced parameters in `do`: the call hands exactly one request to the
transport, and in the query of that request, read as a map from key to values,
`version` has the single value `2024-01-23`, `limit` has the single value
`100`, and every other key has exactly the values it has in the query of the
request the caller passed. -/
theorem do_forces_version_and_limit (env : Env) (c : client) (w : World) (req : Request) :
    ∃ sentReq : Request,
      (c.doReq env w req).1.sent = w.sent ++ [sentReq] ∧
      sentReq.url.Query.lookup (ascii "version") = [ascii "2024-01-23"] ∧
      sentReq.url.Query.lookup (ascii "limit") = [ascii "100"] ∧
      ∀ key, key ≠ ascii "version" → key ≠ ascii "limit" →
        sentReq.url.Query.lookup key = req.url.Query.lookup key :=
  ⟨c.prepare req, doReq_sent env c w req, prepare_lookup_version c req,
    prepare_lookup_limit c req, fun key h1 h2 => prepare_lookup_other c req key h1 h2⟩

theorem fetchPage_of_fails {α : Type} (env : Env) (c : client) (mk : Bytes → Option Request)
    (dec : Bytes → Option (Page α)) (hist : List Request) (link : Bytes) (raw : Request)
    (hb : mk link = some raw) (hf : FetchFails env c dec hist raw) :
    fetchPage env c mk dec hist link = none := by
  unfold fetchPage
  unfold FetchFails at hf
  simp only [hb]
  cases hd : env.Do hist (c.prepare raw) with
  | failed e => rfl
  | response r =>
    rw [hd] at hf
    simp only at hf
    rcases hf with h | h
    · simp [h]
    · simp [h]

theorem text_infix (a b c d e f : Bytes) :
    List.IsInfix b (a ++ b ++ c ++ d ++ e ++ f) ∧ List.IsInfix d (a ++ b ++ c ++ d ++ e ++ f) ∧
    List.IsInfix f (a ++ b ++ c ++ d ++ e ++ f) := by
  refine ⟨⟨a, c ++ d ++ e ++ f, by simp⟩, ⟨a ++ b ++ c, e ++ f, by simp⟩,
    ⟨a ++ b ++ c ++ d ++ e, [], by simp⟩⟩

/-- C5. Status classification in `do`: when the transport answers the request
with a response, `do` returns that response and no error exactly when its
status code is 200; for any other status code it returns no response and the
error `request not OK`, whose text contains the status line, the URL of the
request that was sent and the body (the text `failed to read body` when the
body cannot be read); what `DumpRequestOut` gives, also its failure, has no
effect on what `do` returns. -/
theorem do_status_classification (env : Env) (c : client) (w : World) (req : Request)
    (r : Response) (h : env.Do w.sent (c.prepare req) = .response r) :
    (c.doReq env w req).1.sent = w.sent ++ [c.prepare req] ∧
    ((c.doReq env w req).2 = (some r, none) ↔ r.StatusCode = 200) ∧
    (r.StatusCode ≠ 200 →
      ∃ text, (c.doReq env w req).2 = (none, some (.notOK text)) ∧
        List.IsInfix r.Status text ∧
        List.IsInfix (c.prepare req).url.text text ∧
        List.IsInfix
          (match r.Body with
           | .ok body => body
           | .error _ => ascii "failed to read body") text) ∧
    (∀ dump, (c.doReq { env with DumpRequestOut := dump } w req).2 = (c.doReq env w req).2) := by
  refine ⟨doReq_sent env c w req, ?_, ?_, ?_⟩
  · constructor
    · intro hres
      by_contra hne
      unfold client.doReq at hres
      simp only [Debugf_sent, h, ne_eq, hne, not_false_eq_true, if_true] at hres
      cases hres
    · intro h200
      exact doReq_ok env c w req r h h200
  · intro hne
    unfold client.doReq
    simp only [Debugf_sent, h, ne_eq, hne, not_false_eq_true, if_true]
    cases hbody : r.Body with
    | ok body =>
      refine ⟨_, rfl, ?_⟩
      exact text_infix _ _ _ _ _ _
    | error e =>
      refine ⟨_, rfl, ?_⟩
      exact text_infix _ _ _ _ _ _
  · intro dump
    unfold client.doReq
    simp only [Debugf_sent, h]
    by_cases h200 : r.StatusCode = 200
    · simp [h200]
    · simp only [ne_eq, h200, not_false_eq_true, if_true]

/-- C5 at a server that answers the request with status 403 and the body
`forbidden`: `do` returns no response and an error whose text contains the
status line, the URL with the forced query, and the body. -/
theorem do_status_classification_witness :
    (exEnv [.response ⟨403, ascii "403 Forbidden", .ok (ascii "forbidden")⟩] [] [] []).Do w0.sent
        (exClient.prepare ⟨⟨ascii "https://api.snyk.io/rest/orgs", [], []⟩, []⟩) =
      .response ⟨403, ascii "403 Forbidden", .ok (ascii "forbidden")⟩ ∧
    ∃ text, (exClient.doReq
        (exEnv [.response ⟨403, ascii "403 Forbidden", .ok (ascii "forbidden")⟩] [] [] []) w0
        ⟨⟨ascii "https://api.snyk.io/rest/orgs", [], []⟩, []⟩).2 = (none, some (.notOK text)) ∧
      List.IsInfix (ascii "403 Forbidden") text ∧
      List.IsInfix (ascii "https://api.snyk.io/rest/orgs?limit=100&version=2024-01-23") text ∧
      List.IsInfix (ascii "forbidden") text :=
  ⟨by decide,
    (do_status_classification
      (exEnv [.response ⟨403, ascii "403 Forbidden", .ok (ascii "forbidden")⟩] [] [] []) exClient w0
      ⟨⟨ascii "https://api.snyk.io/rest/orgs", [], []⟩, []⟩
      ⟨403, ascii "403 Forbidden", .ok (ascii "forbidden")⟩ (by decide)).2.2.1 (by decide)⟩

theorem getProjects_of_enumerate (env : Env) (c : client) (fuel : Nat) (w w1 : World)
    (org : Bytes) (out : Outcome (List project))
    (h : enumerate env c (projectsKit env c org) (projectsPath org) fuel
      (w.Debugf "Start finding projects for: %s" [.text org]) = (w1, out)) :
    c.getProjects env fuel w org = (w1, out.map fun items => ⟨items, ⟨[]⟩⟩) := by
  rw [getProjects_eq, h]

theorem getIssues_of_enumerate (env : Env) (c : client) (fuel : Nat) (w w1 : World)
    (org pid : Bytes) (out : Outcome (List issue))
    (h : enumerate env c (issuesKit env c pid) (issuesPath org) fuel
      (w.Debugf "Start finding issues for: %s" [.text pid]) = (w1, out)) :
    c.getIssues env fuel w org pid = (w1, out.map fun items => ⟨items, ⟨[]⟩⟩) := by
  rw [getIssues_eq, h]

theorem stored_first {δ α : Type} (kit : Kit δ α) (full : δ → Bool)
    (hfull : ∀ d x, full d = true → kit.into d x = kit.into d kit.zero) (p : Page δ)
    (ps : List (Page δ)) (h : ∀ q ∈ ps, q.Complete full = true) :
    stored kit ([], []) (p :: ps) = ((p :: ps).map (Page.items kit.into kit.zero)).flatten := by
  simp only [stored, List.map_cons, List.flatten_cons]
  rw [step_first, stored_of_complete kit full hfull ps h]

theorem project_decode_full (d : projectDoc) (x : project) (h : d.Full = true) :
    project.decode d x = project.decode d project.zero := by
  obtain ⟨id, ty, att⟩ := d
  cases id <;> cases ty <;> cases att <;> simp [projectDoc.Full] at h
  rename_i a
  obtain ⟨nm⟩ := a
  cases nm <;> simp at h
  rfl

theorem issue_decode_full (d : issueDoc) (x : issue) (h : d.Full = true) :
    issue.decode d x = issue.decode d issue.zero := by
  obtain ⟨att, co⟩ := d
  cases att <;> cases co <;> simp [issueDoc.Full] at h
  rename_i a b
  obtain ⟨a1, a2, a3, a4, a5⟩ := a
  obtain ⟨b1, b2, b3⟩ := b
  cases a1 <;> cases a2 <;> cases a3 <;> cases a4 <;> cases a5 <;> cases b1 <;> cases b2 <;>
    cases b3 <;> simp at h
  rfl

/-- C6. No partial success. Let the pages `front` (pages 1 to k-1) be served
without ending the loop, and let the fetch of page k fail although its request
can be built: the transport fails, the status is not 200, or the body does not
decode. Then, given fuel for k-1 iterations, `getProjects` and `getIssues`
return an error together with the zero value of the response (no items, empty
next link), and the requests sent are those for pages 1 to k, the failing one
last. -/
theorem no_partial_success (env : Env) (c : client) (w : World)
    (organizationID projectID : Bytes) :
    (∀ (front : List (Page projectDoc)) (raw : Request) (fuel : Nat),
      projectPages env c w organizationID front.length = front →
      Goes [] front →
      projectRequest env c (lastLink (projectsPath organizationID) front) = some raw →
      FetchFails env c env.decodeProjects
        (w.sent ++ (projectTrail env c w organizationID front.length).map Prod.fst) raw →
      front.length ≤ fuel →
      ∃ e, (c.getProjects env fuel w organizationID).2 = .returned ⟨[], ⟨[]⟩⟩ (some e) ∧
        (c.getProjects env fuel w organizationID).1.sent =
          w.sent ++ (projectTrail env c w organizationID front.length).map Prod.fst ++
            [c.prepare raw]) ∧
    (∀ (front : List (Page issueDoc)) (raw : Request) (fuel : Nat),
      issuePages env c w organizationID projectID front.length = front →
      Goes [] front →
      issueRequest env c projectID (lastLink (issuesPath organizationID) front) = some raw →
      FetchFails env c env.decodeIssues
        (w.sent ++ (issueTrail env c w organizationID projectID front.length).map Prod.fst) raw →
      front.length ≤ fuel →
      ∃ e, (c.getIssues env fuel w organizationID projectID).2 =
          .returned ⟨[], ⟨[]⟩⟩ (some e) ∧
        (c.getIssues env fuel w organizationID projectID).1.sent =
          w.sent ++ (issueTrail env c w organizationID projectID front.length).map Prod.fst ++
            [c.prepare raw]) := by
  constructor
  · intro front raw fuel ht hg hb hff hfuel
    have hf := fetchPage_of_fails env c (projectRequest env c) env.decodeProjects _ _ raw hb hff
    obtain ⟨w1, e, hs, he⟩ := enumerate_fails env c (projectsKit env c organizationID)
      (projectsPath organizationID)
      (w.Debugf "Start finding projects for: %s" [.text organizationID]) front raw fuel
      ht hg hb hf hfuel
    rw [getProjects_of_enumerate env c fuel w w1 organizationID _ he]
    exact ⟨e, rfl, hs⟩
  · intro front raw fuel ht hg hb hff hfuel
    have hf := fetchPage_of_fails env c (issueRequest env c projectID) env.decodeIssues _ _ raw
      hb hff
    obtain ⟨w1, e, hs, he⟩ := enumerate_fails env c (issuesKit env c projectID)
      (issuesPath organizationID)
      (w.Debugf "Start finding issues for: %s" [.text projectID]) front raw fuel
      ht hg hb hf hfuel
    rw [getIssues_of_enumerate env c fuel w w1 organizationID projectID _ he]
    exact ⟨e, rfl, hs⟩

/-- C1, amended. Pagination completeness. Let the server deliver the pages
`front ++ [last]` to the call, where every page of `front` carries a non-empty
next link that differs from the link followed to fetch that page, the next
link of `last` is absent or empty, and every page after the first has a `data`
key whose items each have every key of the item type. Then, given fuel for one
iteration per page of `front`, `getProjects` and `getIssues` return without
error exactly the items of all the pages, in page order, having sent one
request per page. -/
theorem pagination_complete (env : Env) (c : client) (w : World)
    (organizationID projectID : Bytes) :
    (∀ (front : List (Page projectDoc)) (last : Page projectDoc) (fuel : Nat),
      projectPages env c w organizationID (front.length + 1) = front ++ [last] →
      Goes [] front → last.link = [] →
      (∀ p ∈ (front ++ [last]).tail, p.Complete projectDoc.Full = true) →
      front.length ≤ fuel →
      (c.getProjects env fuel w organizationID).2 =
          .returned ⟨((front ++ [last]).map Page.projects).flatten, ⟨[]⟩⟩ none ∧
        (c.getProjects env fuel w organizationID).1.sent =
          w.sent ++ (projectTrail env c w organizationID (front.length + 1)).map Prod.fst) ∧
    (∀ (front : List (Page issueDoc)) (last : Page issueDoc) (fuel : Nat),
      issuePages env c w organizationID projectID (front.length + 1) = front ++ [last] →
      Goes [] front → last.link = [] →
      (∀ p ∈ (front ++ [last]).tail, p.Complete issueDoc.Full = true) →
      front.length ≤ fuel →
      (c.getIssues env fuel w organizationID projectID).2 =
          .returned ⟨((front ++ [last]).map Page.issues).flatten, ⟨[]⟩⟩ none ∧
        (c.getIssues env fuel w organizationID projectID).1.sent =
          w.sent ++
            (issueTrail env c w organizationID projectID (front.length + 1)).map Prod.fst) := by
  constructor
  · intro front last fuel ht hg hlast hdata hfuel
    obtain ⟨w1, hs, he⟩ := enumerate_stops env c (projectsKit env c organizationID)
      (projectsPath organizationID)
      (w.Debugf "Start finding projects for: %s" [.text organizationID]) front last fuel
      ht hg (Or.inl hlast) hfuel
    rw [getProjects_of_enumerate env c fuel w w1 organizationID _ he]
    refine ⟨?_, hs⟩
    cases hfl : front ++ [last] with
    | nil => simp at hfl
    | cons p ps =>
      rw [hfl] at hdata
      rw [stored_first (projectsKit env c organizationID) projectDoc.Full
        (fun d x h => project_decode_full d x h) p ps (by simpa using hdata)]
      rfl
  · intro front last fuel ht hg hlast hdata hfuel
    obtain ⟨w1, hs, he⟩ := enumerate_stops env c (issuesKit env c projectID)
      (issuesPath organizationID)
      (w.Debugf "Start finding issues for: %s" [.text projectID]) front last fuel
      ht hg (Or.inl hlast) hfuel
    rw [getIssues_of_enumerate env c fuel w w1 organizationID projectID _ he]
    refine ⟨?_, hs⟩
    cases hfl : front ++ [last] with
    | nil => simp at hfl
    | cons p ps =>
      rw [hfl] at hdata
      rw [stored_first (issuesKit env c projectID) issueDoc.Full
        (fun d x h => issue_decode_full d x h) p ps (by simpa using hdata)]
      rfl

/-! ## Where the enumeration stops -/

theorem lastLink_snoc {α : Type} (ps : List (Page α)) (l : Page α) :
    ∀ L : Bytes, lastLink L (ps ++ [l]) = l.link := by
  induction ps with
  | nil => intro L; rfl
  | cons p ps ih => intro L; simpa [lastLink] using ih p.link

theorem Goes_snoc {α : Type} (ps : List (Page α)) (q : Page α) :
    ∀ L : Bytes, Goes L (ps ++ [q]) ↔ Goes L ps ∧ q.link ≠ [] ∧ q.link ≠ lastLink L ps := by
  induction ps with
  | nil => intro L; simp [Goes, lastLink]
  | cons p ps ih =>
    intro L
    have h := ih p.link
    show (p.link ≠ [] ∧ p.link ≠ L ∧ Goes p.link (ps ++ [q])) ↔
      (p.link ≠ [] ∧ p.link ≠ L ∧ Goes p.link ps) ∧ q.link ≠ [] ∧ q.link ≠ lastLink p.link ps
    rw [h]
    tauto

theorem StopsAt_append {α : Type} (a t : List (Page α)) (j : Nat) (h : j < a.length) :
    StopsAt (a ++ t) j ↔ StopsAt a j := by
  unfold StopsAt
  rw [List.getElem?_append_left h]
  cases j with
  | zero => simp [followedLink]
  | succ i =>
    have hi : i < a.length := by omega
    simp only [followedLink, List.getElem?_append_left hi]

theorem StopsAt_last {α : Type} (front : List (Page α)) (q : Page α) :
    StopsAt (front ++ [q]) front.length ↔ (q.link = [] ∨ q.link = lastLink [] front) := by
  unfold StopsAt
  simp only [List.getElem?_concat_length, Option.some.injEq, exists_eq_left']
  rcases List.eq_nil_or_concat front with h | ⟨f, l, h⟩
  · subst h
    simp [lastLink]
  · subst h
    simp only [List.concat_eq_append, List.length_append, List.length_singleton,
      Nat.zero_lt_succ, true_and, followedLink, lastLink_snoc]
    have : (f ++ [l] ++ [q])[f.length]? = some l := by
      rw [List.append_assoc, List.getElem?_append_right (le_refl _)]
      simp
    rw [this]
    simp

/-- Pages none of which ends the enumeration. -/
theorem goes_of_no_stop {α : Type} (ps : List (Page α)) :
    (∀ j, j < ps.length → ¬ StopsAt ps j) → Goes [] ps := by
  induction ps using List.reverseRecOn with
  | nil => intro _; trivial
  | append_singleton f l ih =>
    intro h
    rw [Goes_snoc]
    have hlast := h f.length (by simp)
    rw [StopsAt_last] at hlast
    refine ⟨ih ?_, ?_, ?_⟩
    · intro j hj hs
      exact h j (by simp; omega) ((StopsAt_append f [l] j hj).2 hs)
    · exact fun e => hlast (Or.inl e)
    · exact fun e => hlast (Or.inr e)

theorem trail_full {α : Type} (env : Env) (c : client) (mk : Bytes → Option Request)
    (dec : Bytes → Option (Page α)) (n : Nat) (hist : List Request) (L : Bytes)
    (h : (trail env c mk dec (n + 1) hist L).length = n + 1) :
    (trail env c mk dec n hist L).length = n ∧
    ∃ x, trail env c mk dec (n + 1) hist L = trail env c mk dec n hist L ++ [x] := by
  have hle := trail_length_le env c mk dec n hist L
  rw [trail_snoc] at h ⊢
  by_cases hl : (trail env c mk dec n hist L).length = n
  · simp only [hl, if_true] at h ⊢
    cases hf : fetchPage env c mk dec (hist ++ (trail env c mk dec n hist L).map Prod.fst)
      (lastLink L ((trail env c mk dec n hist L).map Prod.snd)) with
    | none =>
      rw [hf] at h
      have h2 : (trail env c mk dec n hist L).length = n + 1 := h
      omega
    | some x => exact ⟨trivial, x, rfl⟩
  · simp only [hl, if_false] at h
    omega

theorem served_full {δ α : Type} (env : Env) (c : client) (kit : Kit δ α) (start : Bytes)
    (w : World) (n : Nat) (h : (served env c kit start w (n + 1)).length = n + 1) :
    (served env c kit start w n).length = n ∧
    ∃ q, served env c kit start w (n + 1) = served env c kit start w n ++ [q] := by
  unfold served at h ⊢
  rw [List.length_map] at h
  obtain ⟨h1, x, h2⟩ := trail_full env c kit.build kit.dec n w.sent start h
  exact ⟨by simpa using h1, x.2, by rw [h2]; simp⟩

theorem served_sent_length {δ α : Type} (env : Env) (c : client) (kit : Kit δ α) (start : Bytes)
    (w : World) (n : Nat) (h : (served env c kit start w n).length = n) :
    (w.sent ++ (trail env c kit.build kit.dec n w.sent start).map Prod.fst).length =
      w.sent.length + n := by
  unfold served at h
  simp only [List.length_map] at h
  simp [h]

/-- Page `k` is the first to end the enumeration: the call returns, and has
then sent `k + 1` requests. -/
theorem enumerate_stops_at {δ α : Type} (env : Env) (c : client) (kit : Kit δ α) (start : Bytes)
    (w : World) (k fuel : Nat)
    (hlen : (served env c kit start w (k + 1)).length = k + 1)
    (hstop : StopsAt (served env c kit start w (k + 1)) k)
    (hno : ∀ j, j < k → ¬ StopsAt (served env c kit start w (k + 1)) j)
    (hfuel : k ≤ fuel) :
    ∃ (w1 : World) (v : List α), enumerate env c kit start fuel w = (w1, .returned v none) ∧
      w1.sent.length = w.sent.length + (k + 1) := by
  obtain ⟨hk, q, hq⟩ := served_full env c kit start w k hlen
  rw [hq] at hstop hno
  have hstop2 : StopsAt (served env c kit start w k ++ [q]) (served env c kit start w k).length := by
    rw [hk]; exact hstop
  rw [StopsAt_last] at hstop2
  have hg : Goes [] (served env c kit start w k) := by
    apply goes_of_no_stop
    intro j hj hs
    rw [hk] at hj
    exact hno j hj ((StopsAt_append _ [q] j (by rw [hk]; exact hj)).2 hs)
  have ht : (trail env c kit.build kit.dec ((served env c kit start w k).length + 1) w.sent
      start).map Prod.snd = served env c kit start w k ++ [q] := by
    rw [hk]; exact hq
  obtain ⟨w1, hs, he⟩ := enumerate_stops env c kit start w (served env c kit start w k) q fuel
    ht hg hstop2 (by rw [hk]; exact hfuel)
  refine ⟨w1, _, he, ?_⟩
  rw [hs, hk]
  exact served_sent_length env c kit start w (k + 1) hlen

/-- When every fetch the client makes succeeds and no page ever ends the
enumeration, the call is still running whatever the fuel, having sent one
request more than it had fuel. -/
theorem enumerate_never_stops {δ α : Type} (env : Env) (c : client) (kit : Kit δ α) (start : Bytes)
    (w : World)
    (hserve : ∀ n, (served env c kit start w n).length = n →
      (∀ j, j < n → ¬ StopsAt (served env c kit start w n) j) →
      (served env c kit start w (n + 1)).length = n + 1)
    (hnone : ¬ ∃ k, (served env c kit start w (k + 1)).length = k + 1 ∧
      StopsAt (served env c kit start w (k + 1)) k) :
    ∀ n, ∃ w1 : World, enumerate env c kit start n w = (w1, .running) ∧
      w1.sent.length = w.sent.length + (n + 1) := by
  have hall : ∀ n, (served env c kit start w n).length = n ∧
      ∀ j, j < n → ¬ StopsAt (served env c kit start w n) j := by
    intro n
    induction n with
    | zero => exact ⟨by simp [served, trail], fun j hj => absurd hj (Nat.not_lt_zero j)⟩
    | succ n ih =>
      have hlen := hserve n ih.1 ih.2
      refine ⟨hlen, ?_⟩
      obtain ⟨hk, q, hq⟩ := served_full env c kit start w n hlen
      intro j hj hs
      by_cases hjn : j = n
      · subst hjn
        exact hnone ⟨j, hlen, hs⟩
      · have hj2 : j < n := by omega
        rw [hq] at hs
        exact ih.2 j hj2 ((StopsAt_append _ [q] j (by rw [hk]; exact hj2)).1 hs)
  intro n
  obtain ⟨hlen, hno⟩ := hall (n + 1)
  have hg := goes_of_no_stop _ (by rw [hlen]; exact hno)
  cases hp : served env c kit start w (n + 1) with
  | nil => rw [hp] at hlen; simp at hlen
  | cons p0 rest =>
    rw [hp] at hg hlen
    have hr : rest.length = n := by simpa using hlen
    have ht : (trail env c kit.build kit.dec (rest.length + 1) w.sent start).map Prod.snd =
        p0 :: rest := by
      rw [hr]; exact hp
    obtain ⟨w1, hs, he⟩ := enumerate_runs env c kit start w p0 rest ht hg
    rw [hr] at he hs
    refine ⟨w1, he, ?_⟩
    rw [hs]
    exact served_sent_length env c kit start w (n + 1) (by rw [hp]; simpa using hr)

/-- When every fetch the client makes succeeds, the call returns exactly when
some page ends the enumeration. -/
theorem enumerate_returns_iff {δ α : Type} (env : Env) (c : client) (kit : Kit δ α) (start : Bytes)
    (w : World)
    (hserve : ∀ n, (served env c kit start w n).length = n →
      (∀ j, j < n → ¬ StopsAt (served env c kit start w n) j) →
      (served env c kit start w (n + 1)).length = n + 1) :
    (∃ fuel v e, (enumerate env c kit start fuel w).2 = .returned v e) ↔
      ∃ k, (served env c kit start w (k + 1)).length = k + 1 ∧
        StopsAt (served env c kit start w (k + 1)) k := by
  constructor
  · rintro ⟨fuel, v, e, h⟩
    by_contra hnone
    obtain ⟨w1, he, -⟩ := enumerate_never_stops env c kit start w hserve hnone fuel
    rw [he] at h
    cases h
  · intro hex
    classical
    have hmin := Nat.find_spec hex
    have hlt := fun j (hj : j < Nat.find hex) => Nat.find_min hex hj
    generalize Nat.find hex = k at hmin hlt
    obtain ⟨hlen, hstop⟩ := hmin
    have hno : ∀ j, j < k → ¬ StopsAt (served env c kit start w (k + 1)) j := by
      intro j hj hs
      apply hlt j hj
      -- the first `j + 1` pages are a prefix of the first `k + 1`
      have hpre : ∀ d, (served env c kit start w (j + 1 + d)).length = j + 1 + d →
          (served env c kit start w (j + 1)).length = j + 1 ∧
          (StopsAt (served env c kit start w (j + 1 + d)) j →
            StopsAt (served env c kit start w (j + 1)) j) := by
        intro d
        induction d with
        | zero => intro h; exact ⟨h, id⟩
        | succ d ih =>
          intro h
          obtain ⟨hk, q, hq⟩ := served_full env c kit start w (j + 1 + d) h
          obtain ⟨h1, h2⟩ := ih hk
          refine ⟨h1, fun hs2 => h2 ?_⟩
          have hs3 : StopsAt (served env c kit start w (j + 1 + d) ++ [q]) j := by
            rw [← hq]; exact hs2
          exact (StopsAt_append _ [q] j (by rw [hk]; omega)).1 hs3
      obtain ⟨d, hd⟩ : ∃ d, k + 1 = j + 1 + d := ⟨k - j, by omega⟩
      rw [hd] at hlen hs
      exact ⟨(hpre d hlen).1, (hpre d hlen).2 hs⟩
    obtain ⟨w1, v, he, -⟩ := enumerate_stops_at env c kit start w k k hlen hstop hno (le_refl k)
    exact ⟨k, v, none, by rw [he]⟩

/-- A page that ends the enumeration among the first `k + 1` pages served also
does so among the pages served up to it. -/
theorem stops_within {δ α : Type} (env : Env) (c : client) (kit : Kit δ α) (start : Bytes)
    (w : World) (j : Nat) :
    ∀ d, (served env c kit start w (j + 1 + d)).length = j + 1 + d →
      (served env c kit start w (j + 1)).length = j + 1 ∧
      (StopsAt (served env c kit start w (j + 1 + d)) j →
        StopsAt (served env c kit start w (j + 1)) j) := by
  intro d
  induction d with
  | zero => intro h; exact ⟨h, id⟩
  | succ d ih =>
    intro h
    obtain ⟨hk, q, hq⟩ := served_full env c kit start w (j + 1 + d) h
    obtain ⟨h1, h2⟩ := ih hk
    refine ⟨h1, fun hs2 => h2 ?_⟩
    have hs3 : StopsAt (served env c kit start w (j + 1 + d) ++ [q]) j := by
      rw [← hq]; exact hs2
    exact (StopsAt_append _ [q] j (by rw [hk]; omega)).1 hs3

/-- The termination of an enumeration, for any kit. -/
theorem enumerate_termination {δ α : Type} (env : Env) (c : client) (kit : Kit δ α) (start : Bytes)
    (w : World) :
    (∀ k fuel, EndsAt (served env c kit start w) k →
      (∀ j, j < k → ¬ EndsAt (served env c kit start w) j) → k ≤ fuel →
      ∃ (w1 : World) (v : List α), enumerate env c kit start fuel w = (w1, .returned v none) ∧
        w1.sent.length = w.sent.length + (k + 1)) ∧
    (AllServed (served env c kit start w) →
      ((∃ fuel v e, (enumerate env c kit start fuel w).2 = .returned v e) ↔
        ∃ k, EndsAt (served env c kit start w) k) ∧
      ((¬ ∃ k, EndsAt (served env c kit start w) k) →
        ∀ n, ∃ w1 : World, enumerate env c kit start n w = (w1, .running) ∧
          w1.sent.length = w.sent.length + (n + 1))) := by
  refine ⟨?_, fun hserve => ⟨enumerate_returns_iff env c kit start w hserve,
    fun hnone => enumerate_never_stops env c kit start w hserve hnone⟩⟩
  intro k fuel hend hleast hfuel
  obtain ⟨hlen, hstop⟩ := hend
  refine enumerate_stops_at env c kit start w k fuel hlen hstop ?_ hfuel
  intro j hj hs
  obtain ⟨d, hd⟩ : ∃ d, k + 1 = j + 1 + d := ⟨k - j, by omega⟩
  rw [hd] at hlen hs
  exact hleast j hj ⟨(stops_within env c kit start w j d hlen).1,
    (stops_within env c kit start w j d hlen).2 hs⟩

/-- C10, amended. Request count and termination of the page loop. Pages are
counted from 0 here, so page `k` is the `k + 1`-th page.
(1) If page `k` is served and is the first page that ends the enumeration (its
next link is empty or absent, or `k > 0` and its next link is the link that was
followed to fetch it), then `getProjects` returns without error once it has
fuel for `k` iterations, and has then sent exactly `k + 1` requests.
(2) On a server on which every request the client goes on to can be built and
no fetch or decode fails, `getProjects` returns if and only if some page ends
the enumeration; and when no page does, the call is still in its loop whatever
the fuel `n`, having sent `n + 1` requests. The same holds for `getIssues`. -/
theorem page_loop_termination (env : Env) (c : client) (w : World)
    (organizationID projectID : Bytes) :
    ((∀ k fuel, EndsAt (projectPages env c w organizationID) k →
        (∀ j, j < k → ¬ EndsAt (projectPages env c w organizationID) j) → k ≤ fuel →
        (∃ v, (c.getProjects env fuel w organizationID).2 = .returned v none) ∧
          (c.getProjects env fuel w organizationID).1.sent.length = w.sent.length + (k + 1)) ∧
      (AllServed (projectPages env c w organizationID) →
        ((∃ fuel v e, (c.getProjects env fuel w organizationID).2 = .returned v e) ↔
          ∃ k, EndsAt (projectPages env c w organizationID) k) ∧
        ((¬ ∃ k, EndsAt (projectPages env c w organizationID) k) →
          ∀ n, (c.getProjects env n w organizationID).2 = .running ∧
            (c.getProjects env n w organizationID).1.sent.length = w.sent.length + (n + 1)))) ∧
    ((∀ k fuel, EndsAt (issuePages env c w organizationID projectID) k →
        (∀ j, j < k → ¬ EndsAt (issuePages env c w organizationID projectID) j) → k ≤ fuel →
        (∃ v, (c.getIssues env fuel w organizationID projectID).2 = .returned v none) ∧
          (c.getIssues env fuel w organizationID projectID).1.sent.length =
            w.sent.length + (k + 1)) ∧
      (AllServed (issuePages env c w organizationID projectID) →
        ((∃ fuel v e, (c.getIssues env fuel w organizationID projectID).2 = .returned v e) ↔
          ∃ k, EndsAt (issuePages env c w organizationID projectID) k) ∧
        ((¬ ∃ k, EndsAt (issuePages env c w organizationID projectID) k) →
          ∀ n, (c.getIssues env n w organizationID projectID).2 = .running ∧
            (c.getIssues env n w organizationID projectID).1.sent.length =
              w.sent.length + (n + 1)))) := by
  have hP := enumerate_termination env c (projectsKit env c organizationID)
    (projectsPath organizationID)
    (w.Debugf "Start finding projects for: %s" [.text organizationID])
  have hI := enumerate_termination env c (issuesKit env c projectID)
    (issuesPath organizationID) (w.Debugf "Start finding issues for: %s" [.text projectID])
  have hpe : served env c (projectsKit env c organizationID) (projectsPath organizationID)
      (w.Debugf "Start finding projects for: %s" [.text organizationID]) =
      projectPages env c w organizationID := rfl
  have hie : served env c (issuesKit env c projectID) (issuesPath organizationID)
      (w.Debugf "Start finding issues for: %s" [.text projectID]) =
      issuePages env c w organizationID projectID := rfl
  rw [hpe] at hP
  rw [hie] at hI
  simp only [Debugf_sent] at hP hI
  refine ⟨⟨?_, fun hserve => ⟨?_, ?_⟩⟩, ⟨?_, fun hserve => ⟨?_, ?_⟩⟩⟩
  · intro k fuel hend hleast hfuel
    obtain ⟨w1, v, he, hs⟩ := hP.1 k fuel hend hleast hfuel
    rw [getProjects_of_enumerate env c fuel w w1 organizationID _ he]
    exact ⟨⟨_, rfl⟩, hs⟩
  · rw [← (hP.2 hserve).1]
    constructor
    · rintro ⟨fuel, v, e, h⟩
      rw [getProjects_eq] at h
      cases hout : (enumerate env c (projectsKit env c organizationID)
        (projectsPath organizationID) fuel
        (w.Debugf "Start finding projects for: %s" [.text organizationID])).2 with
      | returned v2 e2 => exact ⟨fuel, v2, e2, hout⟩
      | panicked => rw [hout] at h; cases h
      | running => rw [hout] at h; cases h
    · rintro ⟨fuel, v, e, h⟩
      refine ⟨fuel, ⟨v, ⟨[]⟩⟩, e, ?_⟩
      rw [getProjects_eq, h]
      rfl
  · intro hnone n
    obtain ⟨w1, he, hs⟩ := (hP.2 hserve).2 hnone n
    rw [getProjects_of_enumerate env c n w w1 organizationID _ he]
    exact ⟨rfl, hs⟩
  · intro k fuel hend hleast hfuel
    obtain ⟨w1, v, he, hs⟩ := hI.1 k fuel hend hleast hfuel
    rw [getIssues_of_enumerate env c fuel w w1 organizationID projectID _ he]
    exact ⟨⟨_, rfl⟩, hs⟩
  · rw [← (hI.2 hserve).1]
    constructor
    · rintro ⟨fuel, v, e, h⟩
      rw [getIssues_eq] at h
      cases hout : (enumerate env c (issuesKit env c projectID)
        (issuesPath organizationID) fuel
        (w.Debugf "Start finding issues for: %s" [.text projectID])).2 with
      | returned v2 e2 => exact ⟨fuel, v2, e2, hout⟩
      | panicked => rw [hout] at h; cases h
      | running => rw [hout] at h; cases h
    · rintro ⟨fuel, v, e, h⟩
      refine ⟨fuel, ⟨v, ⟨[]⟩⟩, e, ?_⟩
      rw [getIssues_eq, h]
      rfl
  · intro hnone n
    obtain ⟨w1, he, hs⟩ := (hI.2 hserve).2 hnone n
    rw [getIssues_of_enumerate env c n w w1 organizationID projectID _ he]
    exact ⟨rfl, hs⟩


/-! ## The claims at concrete servers -/

/-- What `getProjects` returns when the last of the pages served ends the
enumeration, pages without `data` included. -/
theorem getProjects_stops (env : Env) (c : client) (w : World) (organizationID : Bytes)
    (front : List (Page projectDoc)) (last : Page projectDoc) (fuel : Nat)
    (ht : projectPages env c w organizationID (front.length + 1) = front ++ [last])
    (hg : Goes [] front) (hstop : last.link = [] ∨ last.link = lastLink [] front)
    (hfuel : front.length ≤ fuel) :
    (c.getProjects env fuel w organizationID).2 =
      .returned ⟨stored (projectsKit env c organizationID) ([], []) (front ++ [last]), ⟨[]⟩⟩
        none := by
  obtain ⟨w1, -, he⟩ := enumerate_stops env c (projectsKit env c organizationID)
    (projectsPath organizationID)
    (w.Debugf "Start finding projects for: %s" [.text organizationID]) front last fuel
    ht hg hstop hfuel
  rw [getProjects_of_enumerate env c fuel w w1 organizationID _ he]
  rfl

/-- What `getIssues` returns when the last of the pages served ends the
enumeration, pages without `data` included. -/
theorem getIssues_stops (env : Env) (c : client) (w : World) (organizationID projectID : Bytes)
    (front : List (Page issueDoc)) (last : Page issueDoc) (fuel : Nat)
    (ht : issuePages env c w organizationID projectID (front.length + 1) = front ++ [last])
    (hg : Goes [] front) (hstop : last.link = [] ∨ last.link = lastLink [] front)
    (hfuel : front.length ≤ fuel) :
    (c.getIssues env fuel w organizationID projectID).2 =
      .returned ⟨stored (issuesKit env c projectID) ([], []) (front ++ [last]), ⟨[]⟩⟩ none := by
  obtain ⟨w1, -, he⟩ := enumerate_stops env c (issuesKit env c projectID)
    (issuesPath organizationID)
    (w.Debugf "Start finding issues for: %s" [.text projectID]) front last fuel
    ht hg hstop hfuel
  rw [getIssues_of_enumerate env c fuel w w1 organizationID projectID _ he]
  rfl

/-- The amended C1 at a server with three pages: both calls return the items
of the three pages in order. -/
theorem pagination_complete_witness :
    ((exClient.getProjects threePages 2 w0 (ascii "o")).2 =
        .returned ⟨[proj "a", proj "b", proj "c"], ⟨[]⟩⟩ none ∧
      (exClient.getProjects threePages 2 w0 (ascii "o")).1.sent.length = 3) ∧
    ((exClient.getIssues threePages 2 w0 (ascii "o") (ascii "p")).2 =
        .returned ⟨[iss "a", iss "b", iss "c"], ⟨[]⟩⟩ none ∧
      (exClient.getIssues threePages 2 w0 (ascii "o") (ascii "p")).1.sent.length = 3) := by
  have hP := (pagination_complete threePages exClient w0 (ascii "o") (ascii "p")).1
    [⟨some [projObject "a"], some (ascii "/p2")⟩, ⟨some [projObject "b"], some (ascii "/p3")⟩]
    ⟨some [projObject "c"], none⟩ 2 (by decide) (by decide) (by decide) (by decide) (by decide)
  have hI := (pagination_complete threePages exClient w0 (ascii "o") (ascii "p")).2
    [⟨some [issObject "a"], some (ascii "/p2")⟩, ⟨some [issObject "b"], some (ascii "/p3")⟩]
    ⟨some [issObject "c"], none⟩ 2 (by decide) (by decide) (by decide) (by decide) (by decide)
  refine ⟨⟨hP.1, ?_⟩, ⟨hI.1, ?_⟩⟩
  · rw [hP.2]; decide
  · rw [hI.2]; decide

/-- C1 as stated fails. The server delivers three pages to `getProjects`: the
first two carry the non-empty next link `/p`, and the server answers the first
request for `/p` with page 2 and would answer the next one with page 3, whose
next link is empty. Page 2 was fetched through `/p` and carries `/p`, so the
guard ends the loop, and whatever the fuel the call never returns the items of
the three pages. -/
theorem pagination_complete_counterexample :
    projectPages sameLinkTwice exClient w0 (ascii "o") 3 =
      [⟨some [projObject "a"], some (ascii "/p")⟩, ⟨some [projObject "b"], some (ascii "/p")⟩,
       ⟨some [projObject "c"], some []⟩] ∧
    (exClient.getProjects sameLinkTwice 1 w0 (ascii "o")).2 =
      .returned ⟨[proj "a", proj "b"], ⟨[]⟩⟩ none ∧
    ¬ ∃ fuel, (exClient.getProjects sameLinkTwice fuel w0 (ascii "o")).2 =
      .returned ⟨[proj "a", proj "b", proj "c"], ⟨[]⟩⟩ none := by
  refine ⟨by decide, by decide, ?_⟩
  rintro ⟨fuel, h⟩
  cases fuel with
  | zero => revert h; decide
  | succ n =>
    have hs := getProjects_stops sameLinkTwice exClient w0 (ascii "o")
      [⟨some [projObject "a"], some (ascii "/p")⟩] ⟨some [projObject "b"], some (ascii "/p")⟩ (n + 1)
      (by decide) (by decide) (by decide) (by simp)
    rw [hs] at h
    revert h
    decide

/-- C6 at a server that answers the second request with status 403: both
calls return an error and the zero response, and have sent two requests. -/
theorem no_partial_success_witness :
    (∃ e, (exClient.getProjects secondForbidden 1 w0 (ascii "o")).2 =
        .returned ⟨[], ⟨[]⟩⟩ (some e) ∧
      (exClient.getProjects secondForbidden 1 w0 (ascii "o")).1.sent.length = 2) ∧
    (∃ e, (exClient.getIssues secondForbidden 1 w0 (ascii "o") (ascii "p")).2 =
        .returned ⟨[], ⟨[]⟩⟩ (some e) ∧
      (exClient.getIssues secondForbidden 1 w0 (ascii "o") (ascii "p")).1.sent.length = 2) := by
  obtain ⟨e1, h1, h2⟩ := (no_partial_success secondForbidden exClient w0 (ascii "o") (ascii "p")).1
    [⟨some [projObject "a"], some (ascii "/p2")⟩] ⟨⟨ascii "https://api.snyk.io/p2", [], []⟩, []⟩ 1
    (by decide) (by decide) (by decide) (by decide) (by decide)
  obtain ⟨e2, h3, h4⟩ := (no_partial_success secondForbidden exClient w0 (ascii "o") (ascii "p")).2
    [⟨some [issObject "a"], some (ascii "/p2")⟩]
    (withScanItem (ascii "p") ⟨⟨ascii "https://api.snyk.io/p2", [], []⟩, []⟩) 1
    (by decide) (by decide) (by decide) (by decide) (by decide)
  refine ⟨⟨e1, h1, ?_⟩, ⟨e2, h3, ?_⟩⟩
  · rw [h2]; decide
  · rw [h4]; decide

/-- On the server with one page every request the client goes on to is built
and every fetch succeeds. -/
theorem onePage_allServed :
    AllServed (projectPages onePage exClient w0 (ascii "o")) := by
  intro n hlen hno
  cases n with
  | zero => decide
  | succ m =>
    exfalso
    apply hno 0 (Nat.succ_pos m)
    have h1 : (fetchPage onePage exClient (projectRequest onePage exClient)
        onePage.decodeProjects w0.sent (projectsPath (ascii "o"))).map Prod.snd =
        some ⟨some [projObject "a"], none⟩ := by decide
    cases hf : fetchPage onePage exClient (projectRequest onePage exClient)
        onePage.decodeProjects w0.sent (projectsPath (ascii "o")) with
    | none => rw [hf] at h1; cases h1
    | some x =>
      obtain ⟨req, pg⟩ := x
      rw [hf] at h1
      simp only [Option.map_some', Option.some.injEq] at h1
      subst h1
      have hp : projectPages onePage exClient w0 (ascii "o") (m + 1) =
          ⟨some [projObject "a"], none⟩ ::
            (trail onePage exClient (projectRequest onePage exClient) onePage.decodeProjects m
              (w0.sent ++ [req]) (Page.link ⟨some [projObject "a"], none⟩)).map Prod.snd := by
        simp only [projectPages, projectTrail, trail, hf, List.map_cons]
      rw [hp]
      exact ⟨⟨some [projObject "a"], none⟩, by simp, Or.inl rfl⟩

/-- Pages that do not stop the loop: none of them ends the enumeration. -/
theorem no_stop_of_goes {α : Type} (ps : List (Page α)) :
    Goes [] ps → ∀ j, j < ps.length → ¬ StopsAt ps j := by
  induction ps using List.reverseRecOn with
  | nil => intro _ j hj; simp at hj
  | append_singleton f l ih =>
    intro hg j hj hs
    rw [Goes_snoc] at hg
    obtain ⟨hg1, hg2, hg3⟩ := hg
    by_cases hjf : j = f.length
    · subst hjf
      rw [StopsAt_last] at hs
      rcases hs with h | h
      · exact hg2 h
      · exact hg3 h
    · have hj2 : j < f.length := by
        simp only [List.length_append, List.length_singleton] at hj
        omega
      exact ih hg1 j hj2 ((StopsAt_append f [l] j hj2).1 hs)

theorem altPages_length (n : Nat) : ∀ b, (altPages b n).length = n := by
  induction n with
  | zero => intro b; cases b <;> rfl
  | succ n ih => intro b; cases b <;> simp [altPages, ih]

theorem altPages_goes (n : Nat) :
    ∀ b L, (L ≠ if b = true then ascii "/b" else ascii "/a") → Goes L (altPages b n) := by
  induction n with
  | zero => intro b L _; cases b <;> trivial
  | succ n ih =>
    intro b L hL
    cases b with
    | true =>
      refine ⟨by decide, fun e => hL e.symm, ih false _ (by decide)⟩
    | false =>
      refine ⟨by decide, fun e => hL e.symm, ih true _ (by decide)⟩

theorem alternating_fetch_a (hist : List Request) :
    (fetchPage alternating exClient (projectRequest alternating exClient)
      alternating.decodeProjects hist (ascii "/a")).map Prod.snd =
      some ⟨some [projObject "y"], some (ascii "/b")⟩ := by
  rfl

theorem alternating_fetch_b (hist : List Request) :
    (fetchPage alternating exClient (projectRequest alternating exClient)
      alternating.decodeProjects hist (ascii "/b")).map Prod.snd =
      some ⟨some [projObject "x"], some (ascii "/a")⟩ := by
  rfl

theorem alternating_fetch_start (hist : List Request) :
    (fetchPage alternating exClient (projectRequest alternating exClient)
      alternating.decodeProjects hist (projectsPath (ascii "o"))).map Prod.snd =
      some ⟨some [projObject "x"], some (ascii "/a")⟩ := by
  rfl

theorem alternating_trail (n : Nat) :
    ∀ hist : List Request,
      (trail alternating exClient (projectRequest alternating exClient)
        alternating.decodeProjects n hist (ascii "/a")).map Prod.snd = altPages true n ∧
      (trail alternating exClient (projectRequest alternating exClient)
        alternating.decodeProjects n hist (ascii "/b")).map Prod.snd = altPages false n := by
  induction n with
  | zero => intro hist; exact ⟨rfl, rfl⟩
  | succ n ih =>
    intro hist
    constructor
    · have h := alternating_fetch_a hist
      cases hf : fetchPage alternating exClient (projectRequest alternating exClient)
          alternating.decodeProjects hist (ascii "/a") with
      | none => rw [hf] at h; cases h
      | some x =>
        obtain ⟨req, pg⟩ := x
        rw [hf] at h
        simp only [Option.map_some', Option.some.injEq] at h
        subst h
        simp only [trail, hf, List.map_cons, altPages]
        exact congrArg _ (ih (hist ++ [req])).2
    · have h := alternating_fetch_b hist
      cases hf : fetchPage alternating exClient (projectRequest alternating exClient)
          alternating.decodeProjects hist (ascii "/b") with
      | none => rw [hf] at h; cases h
      | some x =>
        obtain ⟨req, pg⟩ := x
        rw [hf] at h
        simp only [Option.map_some', Option.some.injEq] at h
        subst h
        simp only [trail, hf, List.map_cons, altPages]
        exact congrArg _ (ih (hist ++ [req])).1

/-- The pages the alternating server delivers to `getProjects`. -/
theorem alternating_pages (n : Nat) :
    projectPages alternating exClient w0 (ascii "o") n = altPages false n := by
  cases n with
  | zero => rfl
  | succ n =>
    have h := alternating_fetch_start w0.sent
    cases hf : fetchPage alternating exClient (projectRequest alternating exClient)
        alternating.decodeProjects w0.sent (projectsPath (ascii "o")) with
    | none => rw [hf] at h; cases h
    | some x =>
      obtain ⟨req, pg⟩ := x
      rw [hf] at h
      simp only [Option.map_some', Option.some.injEq] at h
      subst h
      simp only [projectPages, projectTrail, trail, hf, List.map_cons, altPages]
      exact congrArg _ (alternating_trail n (w0.sent ++ [req])).1

/-- On the alternating server every request is built, every fetch succeeds and
no page ends the enumeration. -/
theorem alternating_never_ends :
    AllServed (projectPages alternating exClient w0 (ascii "o")) ∧
    ¬ ∃ k, EndsAt (projectPages alternating exClient w0 (ascii "o")) k := by
  constructor
  · intro n _ _
    rw [alternating_pages, altPages_length]
  · rintro ⟨k, -, hs⟩
    rw [alternating_pages] at hs
    exact no_stop_of_goes _ (altPages_goes (k + 1) false [] (by decide)) k
      (by rw [altPages_length]; omega) hs

/-- The amended C10 at two servers. On the server with one page the page ends the
enumeration, the call returns after one request, and it returns exactly because
a page ends the enumeration. On the server whose next links alternate between
`/a` and `/b` no page ends the enumeration, and with fuel 7 `getProjects` is
still in its loop after 8 requests. -/
theorem page_loop_termination_witness :
    ((∃ v, (exClient.getProjects onePage 0 w0 (ascii "o")).2 = .returned v none) ∧
      (exClient.getProjects onePage 0 w0 (ascii "o")).1.sent.length = w0.sent.length + (0 + 1)) ∧
    ((∃ fuel v e, (exClient.getProjects onePage fuel w0 (ascii "o")).2 = .returned v e) ↔
      ∃ k, EndsAt (projectPages onePage exClient w0 (ascii "o")) k) ∧
    ((exClient.getProjects alternating 7 w0 (ascii "o")).2 = .running ∧
      (exClient.getProjects alternating 7 w0 (ascii "o")).1.sent.length =
        w0.sent.length + (7 + 1)) ∧
    ((∃ v, (exClient.getIssues onePage 0 w0 (ascii "o") (ascii "p")).2 = .returned v none) ∧
      (exClient.getIssues onePage 0 w0 (ascii "o") (ascii "p")).1.sent.length =
        w0.sent.length + (0 + 1)) :=
  ⟨(page_loop_termination onePage exClient w0 (ascii "o") (ascii "p")).1.1 0 0 (by decide)
      (fun j hj => absurd hj (Nat.not_lt_zero j)) (le_refl 0),
    ((page_loop_termination onePage exClient w0 (ascii "o") (ascii "p")).1.2
      onePage_allServed).1,
    ((page_loop_termination alternating exClient w0 (ascii "o") (ascii "p")).1.2
      alternating_never_ends.1).2 alternating_never_ends.2 7,
    (page_loop_termination onePage exClient w0 (ascii "o") (ascii "p")).2.1 0 0 (by decide)
      (fun j hj => absurd hj (Nat.not_lt_zero j)) (le_refl 0)⟩

theorem fetchPage_nobuild {α : Type} (env : Env) (c : client) (mk : Bytes → Option Request)
    (dec : Bytes → Option (Page α)) (hist : List Request) (link : Bytes) (h : mk link = none) :
    fetchPage env c mk dec hist link = none := by
  simp [fetchPage, h]

/-- The one page the server with the bad next link delivers to `getProjects`. -/
theorem everBadNextLink_pages (n : Nat) :
    projectPages everBadNextLink exClient w0 (ascii "o") (n + 1) =
      [⟨some [projObject "a"], some (ascii "/p2\n")⟩] := by
  have h : (fetchPage everBadNextLink exClient (projectRequest everBadNextLink exClient)
      everBadNextLink.decodeProjects w0.sent (projectsPath (ascii "o"))).map Prod.snd =
      some ⟨some [projObject "a"], some (ascii "/p2\n")⟩ := by decide
  cases hf : fetchPage everBadNextLink exClient (projectRequest everBadNextLink exClient)
      everBadNextLink.decodeProjects w0.sent (projectsPath (ascii "o")) with
  | none => rw [hf] at h; cases h
  | some x =>
    obtain ⟨req, pg⟩ := x
    rw [hf] at h
    simp only [Option.map_some', Option.some.injEq] at h
    subst h
    simp only [projectPages, projectTrail, trail, hf, List.map_cons]
    cases n with
    | zero => rfl
    | succ m =>
      rw [trail, fetchPage_nobuild _ _ _ _ _ _ (by decide)]
      rfl

/-- C10 as stated fails. The server answers every request with status 200 and a
body that decodes, so no fetch and no decode fails on it, and the one page it
delivers to `getProjects` has a non-empty next link, so no page ends the
enumeration. The next link does not build into a request: `getProjects`
returns the construction error after one request, and whatever the fuel it
never sends a second request. -/
theorem page_loop_termination_counterexample :
    (¬ ∃ hist raw, FetchFails everBadNextLink exClient everBadNextLink.decodeProjects hist raw) ∧
    (¬ ∃ k, EndsAt (projectPages everBadNextLink exClient w0 (ascii "o")) k) ∧
    (exClient.getProjects everBadNextLink 1 w0 (ascii "o")).2 =
      .returned ⟨[], ⟨[]⟩⟩ (some (.build (ascii "https://api.snyk.io/p2\n"))) ∧
    ¬ ∃ fuel, 1 < (exClient.getProjects everBadNextLink fuel w0 (ascii "o")).1.sent.length := by
  refine ⟨?_, ?_, by decide, ?_⟩
  · rintro ⟨hist, raw, h⟩
    change ((200 : Nat) ≠ 200 ∨ decodeBody everBadNextLink.decodeProjects
      ⟨200, ascii "200 OK", .ok [Fin.ofNat 0]⟩ = none) at h
    revert h
    decide
  · rintro ⟨k, hlen, hs⟩
    rw [everBadNextLink_pages] at hlen hs
    cases k with
    | zero => revert hs; decide
    | succ m => simp at hlen
  · rintro ⟨fuel, h⟩
    cases fuel with
    | zero => revert h; decide
    | succ n =>
      rw [getProjects_eq] at h
      have hm : (fetchPage everBadNextLink exClient
        (projectRequest everBadNextLink exClient) everBadNextLink.decodeProjects w0.sent
        (projectsPath (ascii "o"))).map Prod.snd =
        some ⟨some [projObject "a"], some (ascii "/p2\n")⟩ := by decide
      cases hf : fetchPage everBadNextLink exClient (projectRequest everBadNextLink exClient)
          everBadNextLink.decodeProjects w0.sent (projectsPath (ascii "o")) with
      | none => rw [hf] at hm; cases hm
      | some x =>
        obtain ⟨req, pg⟩ := x
        rw [hf] at hm
        simp only [Option.map_some', Option.some.injEq] at hm
        subst hm
        obtain ⟨w1, hs1, he1⟩ := enumerate_fetch everBadNextLink exClient
          (projectsKit everBadNextLink exClient (ascii "o")) (projectsPath (ascii "o")) (n + 1)
          (w0.Debugf "Start finding projects for: %s" [.text (ascii "o")]) req _ hf
        rw [he1, pageLoop_nobuild _ _ _ _ _ _ _ _ (by decide) (by decide)] at h
        simp only [Debugf_sent, hs1] at h
        simp [w0] at h

/-- The items of a later page are decoded into the values of the page before
it: at a server whose second page has one item with only the key `id`, the
second item returned has the `id` of page 2 and the other fields of the item
of page 1. -/
theorem later_page_item_keeps_fields :
    (exClient.getProjects secondItemPartial 5 w0 (ascii "o")).2 =
      .returned ⟨[proj "a",
        { ID := ascii "b", Typ := ascii "project", Attributes := { Name := ascii "a" } }],
        ⟨[]⟩⟩ none ∧
    (exClient.getIssues secondItemPartial 5 w0 (ascii "o") (ascii "p")).2 =
      .returned ⟨[iss "a",
        { Attributes := { ID := ascii "b", Typ := ascii "issue", Title := ascii "a",
                          Severity := ascii "high", Ignored := false },
          Coordinates := { Upgradeable := false, Patchable := false, Typ := ascii "vuln" } }],
        ⟨[]⟩⟩ none := by
  decide

/-- C2: the code at a server with two pages of organizations. The first page
carries a next link; `getOrganizations` sends one request, returns the
organization of the first page only and hands the unfollowed next link back in
`Links`. -/
theorem getOrganizations_first_page_only :
    (exClient.getOrganizations twoOrgPages w0).2 =
      .returned ⟨[organization "o1"], ⟨ascii "/rest/orgs?starting_after=o1"⟩⟩ none ∧
    (exClient.getOrganizations twoOrgPages w0).1.sent.length = 1 := by
  decide

/-- Whatever the server, `getOrganizations` sends at most one request. -/
theorem getOrganizations_sends_at_most_one (env : Env) (c : client) (w : World) :
    (c.getOrganizations env w).1.sent.length ≤ w.sent.length + 1 := by
  unfold client.getOrganizations
  cases hb : newRequest env (c.baseURL ++ ascii "/rest/orgs") with
  | none => simp [Debugf_sent]
  | some req =>
    simp only
    have hsent := doReq_sent env c (w.Debugf "Start finding organizations" []) req
    rcases hd : c.doReq env (w.Debugf "Start finding organizations" []) req with ⟨w1, resp, err⟩
    rw [hd] at hsent
    simp only [Debugf_sent] at hsent
    cases err with
    | some e => cases resp <;> simp [hsent]
    | none =>
      cases resp with
      | none => simp [hsent]
      | some r =>
        simp only
        cases decodeBody env.decodeOrgs r with
        | none => simp [hsent]
        | some page => simp [hsent, Debugf_sent]

/-- C7: the code at a server whose second page has no `data` key and carries
the next link `/p` it was fetched through. The guard ends the loop after page
2, but the items of page 1 are returned twice, where pages 1 and 2 together
hold one item. -/
theorem guard_with_page_without_data :
    (exClient.getProjects secondWithoutDataSameLink 5 w0 (ascii "o")).2 =
      .returned ⟨[proj "a", proj "a"], ⟨[]⟩⟩ none ∧
    (exClient.getIssues secondWithoutDataSameLink 5 w0 (ascii "o") (ascii "p")).2 =
      .returned ⟨[iss "a", iss "a"], ⟨[]⟩⟩ none := by
  decide

/-- C8: the code at a server whose first page carries a next link that
`url.Parse` rejects. The loop of `getProjects` returns the construction error
and the zero response; the loop of `getIssues` reads the query of the nil
request before it looks at the error, and panics. -/
theorem getIssues_panics_on_bad_link :
    (exClient.getProjects badNextLink 5 w0 (ascii "o")).2 =
      .returned ⟨[], ⟨[]⟩⟩ (some (.build (ascii "https://api.snyk.io/p2\n"))) ∧
    (exClient.getIssues badNextLink 5 w0 (ascii "o") (ascii "p")).2 = .panicked := by
  decide

/-- C9: the code at a server whose second page has neither a `data` key nor a
next link. The second page holds no items, yet the items decoded from the first
page are appended a second time. -/
theorem page_without_data_repeats_items :
    (exClient.getProjects secondWithoutData 5 w0 (ascii "o")).2 =
      .returned ⟨[proj "a", proj "a"], ⟨[]⟩⟩ none ∧
    (exClient.getIssues secondWithoutData 5 w0 (ascii "o") (ascii "p")).2 =
      .returned ⟨[iss "a", iss "a"], ⟨[]⟩⟩ none := by
  decide

end Snyk
